import Mathlib

/-!
# A verification model of the cta-server synchronization core

This file gives a shallow embedding, in Lean 4, of the incremental
synchronization engine of the cta-server repository:

* `src/DatabaseService.js` — the store access layer (`query`, `insert`,
  `update`, `upsert`, `delete`), modelled both at the statement-outcome
  level (the try/catch structure around the connection pool) and at the
  relational-semantics level (what each successful statement does to a
  table), plus a character-level model of the statement strings built with
  pg-format.
* `Repository` (the schema and reconciliation layer) — dimension-table
  maintenance, the per-entity upserts, burn deletions and the
  `UPDATE_HISTORY` checkpoint log.
* `CTAManager` — page classification and the cursor-driven pagination loop
  `update()`.

JavaScript strings are modelled as `String` (or `List Char` where the
character structure matters), ISO-8601 timestamps as `Nat` (their
lexicographic order is their chronological order), and upstream token
identifiers — decimal digit strings parsed with `parseInt` by the manager —
directly as `Int`.
-/

namespace CtaServer

/-! ## Generic row and table model for the store access layer

A table managed by `DatabaseService.upsert` stores, per row, a primary-key
value and the tuple of all remaining field values.  `RowC κ α` is such a
row with key type `κ` and field-tuple type `α`.
-/

/-- A stored row: the primary-key value and the tuple of non-key fields. -/
structure RowC (κ : Type) (α : Type) where
  pk : κ
  content : α
deriving DecidableEq

variable {κ α : Type} [DecidableEq κ]

/-- `true` when the table already holds a row with primary key `k` — the
conflict test of `INSERT ... ON CONFLICT DO NOTHING`. -/
def hasPk (t : List (RowC κ α)) (k : κ) : Bool :=
  t.any (fun r => decide (r.pk = k))

/-- The first row with primary key `k` (primary keys are unique in a real
table, so this is the row a `WHERE pk = k` statement addresses). -/
def lookupPk : List (RowC κ α) → κ → Option (RowC κ α)
  | [], _ => none
  | r :: t, k => if r.pk = k then some r else lookupPk t k

/-- `DatabaseService.insert` (src/DatabaseService.js lines 81-100), in the
`insertPk = true` form used by every repository upsert: one bulk
`INSERT INTO t(fields) VALUES ... ON CONFLICT DO NOTHING RETURNING pk`.
Rows are attempted in order; a row whose key is already present — in the
table or earlier in the same statement — is skipped; the primary keys of
the rows actually inserted are returned in insertion order. -/
def DatabaseService.insert :
    List (RowC κ α) → List (RowC κ α) → List (RowC κ α) × List κ
  | t, [] => (t, [])
  | t, v :: vs =>
    if hasPk t v.pk then DatabaseService.insert t vs
    else
      let p := DatabaseService.insert (t ++ [v]) vs
      (p.1, v.pk :: p.2)

/-- One `UPDATE t SET (fields) = %L WHERE pk = v.pk` statement
(src/DatabaseService.js lines 113-123): every row whose key matches the
candidate's key is overwritten with the candidate's full field tuple (the
key column is re-set to the same value). -/
def DatabaseService.updateOne (t : List (RowC κ α)) (v : RowC κ α) : List (RowC κ α) :=
  t.map (fun r => if r.pk = v.pk then v else r)

/-- `DatabaseService.update` (src/DatabaseService.js lines 108-124): one
update statement per candidate row, issued in order. -/
def DatabaseService.update (t : List (RowC κ α)) (vs : List (RowC κ α)) :
    List (RowC κ α) :=
  vs.foldl DatabaseService.updateOne t

/-- `DatabaseService.upsert` (src/DatabaseService.js lines 134-156) with
`insertPk = true`, the form used for `CARD_META`, `CARD` and `MINT_PASS`:
first the conflict-skipping bulk insert; then, when at least one key was
inserted, every candidate whose key is not among the returned inserted keys
is applied by a row-level update; when the insert returned no keys, every
candidate is applied by a row-level update.  (The JS guard `pkName in v`
always holds here: every candidate carries its key.) -/
def DatabaseService.upsert (t : List (RowC κ α)) (vs : List (RowC κ α)) :
    List (RowC κ α) :=
  let p := DatabaseService.insert t vs
  let updatedRows :=
    if p.2.length > 0 then vs.filter (fun v => !(decide (v.pk ∈ p.2))) else vs
  if updatedRows.length > 0 then DatabaseService.update p.1 updatedRows else p.1

/-- Modelled from the spec: the atomic upsert that the two-phase
insert-then-update is claimed to be equivalent to.  Candidates are applied
in order; a key already present is overwritten in place, a new key is
appended. -/
def atomicUpsert (t : List (RowC κ α)) (vs : List (RowC κ α)) : List (RowC κ α) :=
  vs.foldl
    (fun t v => if hasPk t v.pk then DatabaseService.updateOne t v else t ++ [v]) t

/-- The candidates of a batch whose key is new relative to table `t`. -/
def newsOf (t vs : List (RowC κ α)) : List (RowC κ α) :=
  vs.filter (fun v => !(hasPk t v.pk))

/-- The candidates of a batch whose key already exists in table `t`. -/
def extsOf (t vs : List (RowC κ α)) : List (RowC κ α) :=
  vs.filter (fun v => hasPk t v.pk)

theorem hasPk_iff (t : List (RowC κ α)) (k : κ) :
    hasPk t k = true ↔ k ∈ t.map RowC.pk := by
  simp only [hasPk, List.any_eq_true, decide_eq_true_eq, List.mem_map]

theorem hasPk_append (t : List (RowC κ α)) (v : RowC κ α) (k : κ) :
    hasPk (t ++ [v]) k = (hasPk t k || decide (v.pk = k)) := by
  simp [hasPk, List.any_append]

theorem newsOf_append_single (t : List (RowC κ α)) (v : RowC κ α)
    (vs : List (RowC κ α)) (hv : v.pk ∉ vs.map RowC.pk) :
    newsOf (t ++ [v]) vs = newsOf t vs := by
  apply List.filter_congr
  intro w hw
  have hne : ¬(v.pk = w.pk) := fun e => hv (e ▸ List.mem_map_of_mem RowC.pk hw)
  simp [hasPk, List.any_append, hne]

theorem extsOf_append_single (t : List (RowC κ α)) (v : RowC κ α)
    (vs : List (RowC κ α)) (hv : v.pk ∉ vs.map RowC.pk) :
    extsOf (t ++ [v]) vs = extsOf t vs := by
  apply List.filter_congr
  intro w hw
  have hne : ¬(v.pk = w.pk) := fun e => hv (e ▸ List.mem_map_of_mem RowC.pk hw)
  simp [hasPk, List.any_append, hne]

theorem insert_eq_append (t vs : List (RowC κ α)) (h : (vs.map RowC.pk).Nodup) :
    DatabaseService.insert t vs = (t ++ newsOf t vs, (newsOf t vs).map RowC.pk) := by
  induction vs generalizing t with
  | nil => simp [DatabaseService.insert, newsOf]
  | cons v vs ih =>
    simp only [List.map_cons, List.nodup_cons] at h
    cases hc : hasPk t v.pk with
    | true =>
      simp only [DatabaseService.insert, hc, if_true]
      rw [ih t h.2]
      simp [newsOf, List.filter_cons, hc]
    | false =>
      simp only [DatabaseService.insert, hc, Bool.false_eq_true, if_false]
      rw [ih (t ++ [v]) h.2, newsOf_append_single t v vs h.1]
      have hnews : newsOf t (v :: vs) = v :: newsOf t vs := by
        simp [newsOf, List.filter_cons, hc]
      simp [hnews, List.append_assoc]

theorem pkMap_updateOne (t : List (RowC κ α)) (v : RowC κ α) :
    (DatabaseService.updateOne t v).map RowC.pk = t.map RowC.pk := by
  induction t with
  | nil => rfl
  | cons r t ih =>
    simp only [DatabaseService.updateOne, List.map_cons] at ih ⊢
    by_cases hr : r.pk = v.pk
    · simp [hr, ih]
    · simp [hr, ih]

theorem hasPk_updateOne (t : List (RowC κ α)) (v : RowC κ α) (k : κ) :
    hasPk (DatabaseService.updateOne t v) k = hasPk t k := by
  by_cases h : hasPk t k = true
  · rw [h]
    rw [hasPk_iff] at h ⊢
    rwa [pkMap_updateOne]
  · rw [Bool.not_eq_true] at h
    rw [h]
    rw [Bool.eq_false_iff] at h ⊢
    intro hc
    apply h
    rw [hasPk_iff] at hc ⊢
    rwa [pkMap_updateOne] at hc

theorem newsOf_updateOne (t : List (RowC κ α)) (v : RowC κ α) (vs : List (RowC κ α)) :
    newsOf (DatabaseService.updateOne t v) vs = newsOf t vs := by
  apply List.filter_congr
  intro w _
  rw [hasPk_updateOne]

theorem extsOf_updateOne (t : List (RowC κ α)) (v : RowC κ α) (vs : List (RowC κ α)) :
    extsOf (DatabaseService.updateOne t v) vs = extsOf t vs := by
  apply List.filter_congr
  intro w _
  rw [hasPk_updateOne]

theorem updateOne_append (a b : List (RowC κ α)) (v : RowC κ α) :
    DatabaseService.updateOne (a ++ b) v =
      DatabaseService.updateOne a v ++ DatabaseService.updateOne b v := by
  simp [DatabaseService.updateOne]

theorem updateOne_of_not_mem (b : List (RowC κ α)) (v : RowC κ α)
    (hv : v.pk ∉ b.map RowC.pk) : DatabaseService.updateOne b v = b := by
  induction b with
  | nil => rfl
  | cons r b ih =>
    simp only [List.map_cons, List.mem_cons, not_or] at hv
    have hr : ¬(r.pk = v.pk) := fun e => hv.1 e.symm
    simp only [DatabaseService.updateOne, List.map_cons, hr, if_false]
    have := ih hv.2
    simp only [DatabaseService.updateOne] at this
    rw [this]

theorem update_cons (t : List (RowC κ α)) (v : RowC κ α) (vs : List (RowC κ α)) :
    DatabaseService.update t (v :: vs) =
      DatabaseService.update (DatabaseService.updateOne t v) vs := rfl

theorem upsert_eq_update (t vs : List (RowC κ α)) (h : (vs.map RowC.pk).Nodup) :
    DatabaseService.upsert t vs =
      DatabaseService.update (t ++ newsOf t vs) (extsOf t vs) := by
  unfold DatabaseService.upsert
  rw [insert_eq_append t vs h]
  by_cases hn : newsOf t vs = []
  · have hext : extsOf t vs = vs := by
      apply List.filter_eq_self.mpr
      intro v hv
      by_contra hc
      rw [Bool.not_eq_true] at hc
      have : v ∈ newsOf t vs := by
        simp [newsOf, List.mem_filter, hv, hc]
      rw [hn] at this
      exact absurd this (List.not_mem_nil v)
    rw [hn, hext]
    cases vs with
    | nil => simp [DatabaseService.update]
    | cons w ws => simp
  · have hlen : ((newsOf t vs).map RowC.pk).length > 0 := by
      simp only [List.length_map]
      exact List.length_pos.mpr hn
    simp only [hlen, if_pos]
    have hupd : (vs.filter (fun v => !(decide (v.pk ∈ (newsOf t vs).map RowC.pk)))) =
        extsOf t vs := by
      apply List.filter_congr
      intro v hv
      by_cases hc : hasPk t v.pk = true
      · rw [hc]
        have : v.pk ∉ (newsOf t vs).map RowC.pk := by
          intro hm
          rcases List.mem_map.mp hm with ⟨w, hw, hwe⟩
          rcases List.mem_filter.mp hw with ⟨hwvs, hwp⟩
          have : w = v := List.inj_on_of_nodup_map h hwvs hv hwe
          rw [this] at hwp
          simp [hc] at hwp
        simp [this]
      · rw [Bool.not_eq_true] at hc
        rw [hc]
        have : v.pk ∈ (newsOf t vs).map RowC.pk := by
          apply List.mem_map_of_mem
          simp [newsOf, List.mem_filter, hv, hc]
        simp [this]
    rw [hupd]
    by_cases he : extsOf t vs = []
    · simp [he, DatabaseService.update]
    · have : (extsOf t vs).length > 0 := List.length_pos.mpr he
      simp [this]

theorem atomicUpsert_eq_update (t vs : List (RowC κ α))
    (h : (vs.map RowC.pk).Nodup) :
    atomicUpsert t vs =
      DatabaseService.update (t ++ newsOf t vs) (extsOf t vs) := by
  induction vs generalizing t with
  | nil => simp [atomicUpsert, newsOf, extsOf, DatabaseService.update]
  | cons v vs ih =>
    simp only [List.map_cons, List.nodup_cons] at h
    have hvnews : v.pk ∉ (newsOf t vs).map RowC.pk := by
      intro hm
      exact h.1 (List.Sublist.map RowC.pk ((List.filter_sublist vs)) |>.mem hm)
    cases hc : hasPk t v.pk with
    | true =>
      have hstep : atomicUpsert t (v :: vs) =
          atomicUpsert (DatabaseService.updateOne t v) vs := by
        simp [atomicUpsert, hc]
      rw [hstep, ih _ h.2, newsOf_updateOne, extsOf_updateOne]
      have hnews : newsOf t (v :: vs) = newsOf t vs := by
        simp [newsOf, List.filter_cons, hc]
      have hexts : extsOf t (v :: vs) = v :: extsOf t vs := by
        simp [extsOf, List.filter_cons, hc]
      rw [hnews, hexts, update_cons, updateOne_append,
        updateOne_of_not_mem _ _ hvnews]
    | false =>
      have hstep : atomicUpsert t (v :: vs) = atomicUpsert (t ++ [v]) vs := by
        simp [atomicUpsert, hc]
      rw [hstep, ih _ h.2, newsOf_append_single t v vs h.1,
        extsOf_append_single t v vs h.1]
      have hnews : newsOf t (v :: vs) = v :: newsOf t vs := by
        simp [newsOf, List.filter_cons, hc]
      have hexts : extsOf t (v :: vs) = extsOf t vs := by
        simp [extsOf, List.filter_cons, hc]
      rw [hnews, hexts, List.append_assoc]
      rfl

theorem lookupPk_eq_none (t : List (RowC κ α)) (k : κ) (h : hasPk t k = false) :
    lookupPk t k = none := by
  induction t with
  | nil => rfl
  | cons r t ih =>
    simp only [hasPk, List.any_cons, Bool.or_eq_false_iff, decide_eq_false_iff_not] at h
    simp only [lookupPk, h.1, if_false]
    exact ih (by simp [hasPk, h.2])

theorem lookupPk_mem (t : List (RowC κ α)) (k : κ) (r : RowC κ α)
    (h : lookupPk t k = some r) : r ∈ t := by
  induction t with
  | nil => exact absurd h (by simp [lookupPk])
  | cons w t ih =>
    by_cases hw : w.pk = k
    · simp only [lookupPk, hw, if_pos, Option.some.injEq] at h
      exact h ▸ List.mem_cons_self w t
    · simp only [lookupPk, hw, if_false] at h
      exact List.mem_cons_of_mem w (ih h)

theorem lookupPk_some_hasPk (t : List (RowC κ α)) (k : κ) (r : RowC κ α)
    (h : lookupPk t k = some r) : hasPk t k = true := by
  by_contra hc
  rw [Bool.not_eq_true] at hc
  rw [lookupPk_eq_none t k hc] at h
  exact absurd h (by simp)

theorem lookupPk_append_of_none (a b : List (RowC κ α)) (k : κ)
    (h : lookupPk a k = none) : lookupPk (a ++ b) k = lookupPk b k := by
  induction a with
  | nil => rfl
  | cons r a ih =>
    by_cases hr : r.pk = k
    · simp [lookupPk, hr] at h
    · simp only [lookupPk, hr, if_false] at h
      simp only [List.cons_append, lookupPk, hr, if_false]
      exact ih h

theorem lookupPk_self_of_nodup (l : List (RowC κ α)) (v : RowC κ α)
    (hnd : (l.map RowC.pk).Nodup) (hv : v ∈ l) : lookupPk l v.pk = some v := by
  induction l with
  | nil => exact absurd hv (List.not_mem_nil v)
  | cons w l ih =>
    simp only [List.map_cons, List.nodup_cons] at hnd
    rcases List.mem_cons.mp hv with he | hm
    · rw [he]
      simp [lookupPk]
    · have hne : ¬(w.pk = v.pk) := by
        intro e
        exact hnd.1 (e ▸ List.mem_map_of_mem RowC.pk hm)
      simp only [lookupPk, hne, if_false]
      exact ih hnd.2 hm

theorem updateOne_cons (r : RowC κ α) (t : List (RowC κ α)) (v : RowC κ α) :
    DatabaseService.updateOne (r :: t) v =
      (if r.pk = v.pk then v else r) :: DatabaseService.updateOne t v := rfl

theorem lookupPk_updateOne_ne (t : List (RowC κ α)) (v : RowC κ α) (k : κ)
    (h : ¬(k = v.pk)) : lookupPk (DatabaseService.updateOne t v) k = lookupPk t k := by
  induction t with
  | nil => rfl
  | cons r t ih =>
    rw [updateOne_cons]
    by_cases hr : r.pk = v.pk
    · rw [if_pos hr]
      have h1 : ¬(v.pk = k) := fun e => h e.symm
      have h2 : ¬(r.pk = k) := by rw [hr]; exact h1
      simp only [lookupPk, h1, h2, if_false]
      exact ih
    · rw [if_neg hr]
      simp only [lookupPk]
      by_cases hrk : r.pk = k
      · simp [hrk]
      · simp only [hrk, if_false]
        exact ih

theorem lookupPk_updateOne_self (t : List (RowC κ α)) (v : RowC κ α)
    (h : hasPk t v.pk = true) :
    lookupPk (DatabaseService.updateOne t v) v.pk = some v := by
  induction t with
  | nil => simp [hasPk] at h
  | cons r t ih =>
    rw [updateOne_cons]
    by_cases hr : r.pk = v.pk
    · rw [if_pos hr]
      simp [lookupPk]
    · rw [if_neg hr]
      simp only [hasPk, List.any_cons, Bool.or_eq_true, decide_eq_true_eq] at h
      rcases h with h | h
      · exact absurd h hr
      · simp only [lookupPk, hr, if_false]
        exact ih (by simp [hasPk, h])

theorem update_lookupPk_not_mem (es : List (RowC κ α)) (T : List (RowC κ α)) (k : κ)
    (h : k ∉ es.map RowC.pk) :
    lookupPk (DatabaseService.update T es) k = lookupPk T k := by
  induction es generalizing T with
  | nil => rfl
  | cons e es ih =>
    simp only [List.map_cons, List.mem_cons, not_or] at h
    rw [update_cons, ih _ h.2, lookupPk_updateOne_ne _ _ _ h.1]

theorem hasPk_update (T : List (RowC κ α)) (es : List (RowC κ α)) (k : κ) :
    hasPk (DatabaseService.update T es) k = hasPk T k := by
  induction es generalizing T with
  | nil => rfl
  | cons e es ih =>
    rw [update_cons, ih, hasPk_updateOne]

theorem update_lookupPk_mem (es : List (RowC κ α)) (T : List (RowC κ α))
    (e : RowC κ α) (hnd : (es.map RowC.pk).Nodup) (he : e ∈ es)
    (hT : hasPk T e.pk = true) :
    lookupPk (DatabaseService.update T es) e.pk = some e := by
  induction es generalizing T with
  | nil => exact absurd he (List.not_mem_nil e)
  | cons w es ih =>
    simp only [List.map_cons, List.nodup_cons] at hnd
    rcases List.mem_cons.mp he with hew | hem
    · rw [hew, update_cons]
      rw [update_lookupPk_not_mem es _ _ (hew ▸ hnd.1)]
      exact lookupPk_updateOne_self T w (hew ▸ hT)
    · rw [update_cons]
      exact ih _ hnd.2 hem (by rw [hasPk_updateOne]; exact hT)

theorem pkMap_update (T : List (RowC κ α)) (es : List (RowC κ α)) :
    (DatabaseService.update T es).map RowC.pk = T.map RowC.pk := by
  induction es generalizing T with
  | nil => rfl
  | cons e es ih =>
    rw [update_cons, ih, pkMap_updateOne]

theorem upsert_lookup_latest (t vs : List (RowC κ α))
    (hvs : (vs.map RowC.pk).Nodup) (v : RowC κ α) (hv : v ∈ vs) :
    lookupPk (DatabaseService.upsert t vs) v.pk = some v := by
  rw [upsert_eq_update t vs hvs]
  have hnewsnd : ((newsOf t vs).map RowC.pk).Nodup :=
    List.Nodup.sublist (List.Sublist.map RowC.pk (List.filter_sublist vs)) hvs
  have hextsnd : ((extsOf t vs).map RowC.pk).Nodup :=
    List.Nodup.sublist (List.Sublist.map RowC.pk (List.filter_sublist vs)) hvs
  cases hc : hasPk t v.pk with
  | false =>
    have hvnews : v ∈ newsOf t vs := by
      simp [newsOf, List.mem_filter, hv, hc]
    have hnotexts : v.pk ∉ (extsOf t vs).map RowC.pk := by
      intro hm
      rcases List.mem_map.mp hm with ⟨w, hw, hwe⟩
      rcases List.mem_filter.mp hw with ⟨hwvs, hwp⟩
      have : w = v := List.inj_on_of_nodup_map hvs hwvs hv hwe
      rw [this, hc] at hwp
      exact absurd hwp (by simp)
    rw [update_lookupPk_not_mem _ _ _ hnotexts,
      lookupPk_append_of_none _ _ _ (lookupPk_eq_none t v.pk hc)]
    exact lookupPk_self_of_nodup _ v hnewsnd hvnews
  | true =>
    have hvexts : v ∈ extsOf t vs := by
      simp [extsOf, List.mem_filter, hv, hc]
    apply update_lookupPk_mem _ _ _ hextsnd hvexts
    rw [hasPk_iff, List.map_append]
    exact List.mem_append_left _ ((hasPk_iff t v.pk).mp hc)

theorem updateOne_eq_self (T : List (RowC κ α)) (v : RowC κ α)
    (h : ∀ r ∈ T, r.pk = v.pk → r = v) : DatabaseService.updateOne T v = T := by
  induction T with
  | nil => rfl
  | cons r T ih =>
    simp only [DatabaseService.updateOne, List.map_cons]
    by_cases hr : r.pk = v.pk
    · rw [if_pos hr, (h r (List.mem_cons_self r T) hr)]
      have := ih (fun w hw => h w (List.mem_cons_of_mem r hw))
      simp only [DatabaseService.updateOne] at this
      rw [this]
    · rw [if_neg hr]
      have := ih (fun w hw => h w (List.mem_cons_of_mem r hw))
      simp only [DatabaseService.updateOne] at this
      rw [this]

theorem update_eq_self (T : List (RowC κ α)) (vs : List (RowC κ α))
    (h : ∀ v ∈ vs, DatabaseService.updateOne T v = T) :
    DatabaseService.update T vs = T := by
  induction vs with
  | nil => rfl
  | cons v vs ih =>
    rw [update_cons, h v (List.mem_cons_self v vs)]
    exact ih (fun w hw => h w (List.mem_cons_of_mem v hw))

theorem upsert_pkMap_nodup (t vs : List (RowC κ α))
    (hvs : (vs.map RowC.pk).Nodup) (ht : (t.map RowC.pk).Nodup) :
    ((DatabaseService.upsert t vs).map RowC.pk).Nodup := by
  rw [upsert_eq_update t vs hvs, pkMap_update, List.map_append]
  rw [List.nodup_append]
  refine ⟨ht, List.Nodup.sublist (List.Sublist.map RowC.pk (List.filter_sublist vs)) hvs, ?_⟩
  intro k hk hk2
  rcases List.mem_map.mp hk2 with ⟨w, hw, hwe⟩
  rcases List.mem_filter.mp hw with ⟨_, hwp⟩
  rw [hwe] at hwp
  rw [← hasPk_iff] at hk
  simp [hk] at hwp

theorem upsert_of_all_exist (T vs : List (RowC κ α))
    (hvs : (vs.map RowC.pk).Nodup) (hall : ∀ v ∈ vs, hasPk T v.pk = true) :
    DatabaseService.upsert T vs = DatabaseService.update T vs := by
  have hnews : newsOf T vs = [] := by
    apply List.filter_eq_nil_iff.mpr
    intro v hv
    simp [hall v hv]
  unfold DatabaseService.upsert
  rw [insert_eq_append T vs hvs, hnews]
  simp only [List.map_nil, List.length_nil, gt_iff_lt, Nat.lt_irrefl, if_false,
    List.append_nil]
  cases h : vs with
  | nil => simp [DatabaseService.update]
  | cons w ws => simp

theorem upsert_idempotent (t vs : List (RowC κ α))
    (hvs : (vs.map RowC.pk).Nodup) (ht : (t.map RowC.pk).Nodup) :
    DatabaseService.upsert (DatabaseService.upsert t vs) vs =
      DatabaseService.upsert t vs := by
  have hTnd := upsert_pkMap_nodup t vs hvs ht
  have hall : ∀ v ∈ vs, hasPk (DatabaseService.upsert t vs) v.pk = true :=
    fun v hv => lookupPk_some_hasPk _ _ _ (upsert_lookup_latest t vs hvs v hv)
  rw [upsert_of_all_exist _ vs hvs hall]
  apply update_eq_self
  intro v hv
  apply updateOne_eq_self
  intro r hr hrpk
  have hlook := upsert_lookup_latest t vs hvs v hv
  have hvmem := lookupPk_mem _ _ _ hlook
  exact List.inj_on_of_nodup_map hTnd hr hvmem hrpk

/-! ## `MINT_PASS_TYPE` maintenance (`Repository.updateMintPassTypes`) -/

/-- A `MINT_PASS_TYPE` row: serial surrogate id plus the four descriptive
columns (`Repository._createSchema`; the table has no UNIQUE constraint on
`pass_type`). -/
structure MPTRow where
  id : Nat
  pass_type : String
  name : String
  description : String
  image_url : String
deriving DecidableEq

/-- The `MINT_PASS_TYPE` table together with the next value of its id
sequence. -/
structure MPTTable where
  rows : List MPTRow
  nextId : Nat
deriving DecidableEq

/-- A mint-pass-type candidate as assembled by the page classification:
`{ passType, name, description, imageUrl }`. -/
structure MPTCand where
  passType : String
  name : String
  description : String
  imageUrl : String
deriving DecidableEq

/-- `DatabaseService.insert` on `MINT_PASS_TYPE`
(`INSERT INTO MINT_PASS_TYPE(pass_type, name, description, image_url) ...
ON CONFLICT DO NOTHING`): the statement names no key column and the table
has no unique constraint on the inserted columns, so the conflict-skip
never fires and every row is appended with a generated serial id. -/
def mptInsert : MPTTable → List MPTCand → MPTTable
  | t, [] => t
  | t, c :: cs =>
    mptInsert
      { rows := t.rows ++ [⟨t.nextId, c.passType, c.name, c.description, c.imageUrl⟩],
        nextId := t.nextId + 1 } cs

/-- `Repository.updateMintPassTypes` (combined CTAManager/Repository source,
lines 815-837): return unchanged on an empty candidate list; otherwise read
the existing pass-type names, keep only the candidates whose `passType` is
not among them, and bulk-insert those.  An existing pass type is never
updated. -/
def Repository.updateMintPassTypes (t : MPTTable) (mintPassTypes : List MPTCand) :
    MPTTable :=
  if mintPassTypes.length ≤ 0 then t
  else
    let existingPassTypeNames := t.rows.map MPTRow.pass_type
    let rows := mintPassTypes.filter
      (fun p => !(decide (p.passType ∈ existingPassTypeNames)))
    if rows.length > 0 then mptInsert t rows else t

/-! ## Claim C1 -/

/-- **C1 (amended).**  The two-phase insert-then-update upsert of
`DatabaseService.upsert` — the reconciliation algorithm for the archetype
(`CARD_META`), card-instance (`CARD`) and pass-instance (`MINT_PASS`)
tables — is idempotent and equivalent to an atomic upsert.  For every
batch of candidates with pairwise-distinct primary keys applied to a
well-formed table: the result equals the atomic upsert (new keys are
appended, existing keys are overwritten in place, so new keys end up
inserted and existing keys end up updated), every candidate's key ends up
holding exactly the candidate's row content regardless of which path was
taken, and re-applying the same batch yields the same final table.
Amendment: the claim also listed the pass-type table, but `MINT_PASS_TYPE`
is maintained by `Repository.updateMintPassTypes`, which inserts new keys
only and never updates an existing row
(`mint_pass_type_upsert_counterexample`). -/
theorem upsert_insert_then_update_correct (t vs : List (RowC κ α))
    (hvs : (vs.map RowC.pk).Nodup) (ht : (t.map RowC.pk).Nodup) :
    DatabaseService.upsert t vs = atomicUpsert t vs
    ∧ (∀ v ∈ vs, lookupPk (DatabaseService.upsert t vs) v.pk = some v)
    ∧ DatabaseService.upsert (DatabaseService.upsert t vs) vs =
        DatabaseService.upsert t vs :=
  ⟨(upsert_eq_update t vs hvs).trans (atomicUpsert_eq_update t vs hvs).symm,
   fun v hv => upsert_lookup_latest t vs hvs v hv,
   upsert_idempotent t vs hvs ht⟩

/-- A concrete table holding one row with key 1. -/
def tW : List (RowC Int String) := [⟨1, "old"⟩]

/-- A concrete batch with one already-existing key (1) and one brand-new
key (2). -/
def vsW : List (RowC Int String) := [⟨1, "upd"⟩, ⟨2, "new"⟩]

/-- **C1, witness.** The amended claim instantiated on a concrete batch
containing both a brand-new and an already-existing primary key. -/
theorem upsert_insert_then_update_correct_witness :
    DatabaseService.upsert tW vsW = atomicUpsert tW vsW
    ∧ (∀ v ∈ vsW, lookupPk (DatabaseService.upsert tW vsW) v.pk = some v)
    ∧ DatabaseService.upsert (DatabaseService.upsert tW vsW) vsW =
        DatabaseService.upsert tW vsW :=
  upsert_insert_then_update_correct tW vsW (by decide) (by decide)

/-- A `MINT_PASS_TYPE` table already holding pass type `GOLD`. -/
def mptT0 : MPTTable :=
  ⟨[⟨1, "GOLD", "Old Name", "Old Desc", "old.png"⟩], 2⟩

/-- A fresh candidate for the existing pass type `GOLD`, with new
descriptive content. -/
def mptCand0 : MPTCand := ⟨"GOLD", "New Name", "New Desc", "new.png"⟩

/-- **C1, counterexample.**  The claim says the two-phase insert-then-update
upsert is used for the pass-type table and that the final row content
equals the latest candidate.  On the code, `Repository.updateMintPassTypes`
never updates an existing row: re-submitting the existing pass type `GOLD`
with new descriptive content leaves the table completely unchanged, so the
stored name is still the old one and differs from the latest candidate's
name. -/
theorem mint_pass_type_upsert_counterexample :
    Repository.updateMintPassTypes mptT0 [mptCand0] = mptT0
    ∧ (mptT0.rows.map MPTRow.pass_type = [mptCand0.passType])
    ∧ ¬(mptT0.rows.map MPTRow.name = [mptCand0.name]) := by
  refine ⟨?_, ?_, ?_⟩ <;> decide

/-! ## The store access layer's error behaviour (`DatabaseService`)

The connection pool's execution of one statement is modelled by its
outcome: `Except.ok rows` when the statement succeeded, `Except.error e`
when it threw.  `DatabaseService.query` wraps the pool call in
try/catch and degrades a failure to the empty row list; `insert` and
`update` issue every statement through `query`; `delete` calls
`this.pool.query` directly, with no catch.
-/

/-- `DatabaseService.query` (src/DatabaseService.js lines 53-64): the pool
outcome with the catch-all that turns a failure into `[]`. -/
def DatabaseService.queryPool {ε ρ : Type} (pool : Except ε (List ρ)) : List ρ :=
  match pool with
  | Except.ok rows => rows
  | Except.error _ => []

/-- The result `DatabaseService.insert` hands back: its single statement is
issued through `query`, and the primary-key column is extracted from the
returned rows — so a failed statement yields `[]`, never an exception. -/
def DatabaseService.insertPool {ε ρ π : Type} (pool : Except ε (List ρ))
    (pkOf : ρ → π) : List π :=
  (DatabaseService.queryPool pool).map pkOf

/-- The results `DatabaseService.update` observes: one statement per row,
each issued through `query`; every outcome is absorbed, none can throw. -/
def DatabaseService.updatePool {ε ρ : Type} (pools : List (Except ε (List ρ))) :
    List (List ρ) :=
  pools.map DatabaseService.queryPool

/-- `DatabaseService.delete` (src/DatabaseService.js lines 69-71): the
statement is issued directly on `this.pool.query` with no try/catch, so a
failing statement's exception propagates to the caller. -/
def DatabaseService.deletePool {ε ρ : Type} (pool : Except ε (List ρ)) :
    Except ε Unit := do
  let _ ← pool
  pure ()

/-! ## Relational semantics of `DatabaseService.delete`

`delete(table, ids)` issues
`format('DELETE FROM table WHERE id IN (%L)', ids)`.  pg-format renders an
empty id list as the empty string, producing `... WHERE id IN ()`, which
PostgreSQL rejects as a syntax error; since `delete` has no catch, that
error propagates.  A non-empty list removes exactly the rows whose `id` is
listed.
-/

/-- `DatabaseService.delete` (src/DatabaseService.js lines 69-71) acting on
a table: error on an empty id list (invalid `IN ()` statement, uncaught);
otherwise remove exactly the rows whose primary key is in `ids`. -/
def DatabaseService.delete (t : List (RowC Int α)) (ids : List Int) :
    Except Unit (List (RowC Int α)) :=
  if ids.isEmpty then Except.error ()
  else Except.ok (t.filter (fun r => !(decide (r.pk ∈ ids))))

/-! ## Claim C5 -/

/-- **C5 (amended).**  `query` absorbs any statement failure into an empty
row list, and `insert` and `update` — which issue all their statements
through `query` — therefore also absorb failures (`insert` returns an empty
key list, `update` observes empty results); but `delete` issues its
statement directly on the pool without a catch, so a `delete` statement
failure propagates out of the store access layer — it is the one
store-access operation that does not absorb failures. -/
theorem store_errors_absorbed_amended :
    (∀ (ρ : Type) (e : Unit), DatabaseService.queryPool (ρ := ρ) (Except.error e) = [])
    ∧ (∀ (ρ π : Type) (pkOf : ρ → π) (e : Unit),
        DatabaseService.insertPool (Except.error e) pkOf = [])
    ∧ (∀ (ρ : Type) (pools : List (Except Unit (List ρ))),
        (DatabaseService.updatePool pools).length = pools.length)
    ∧ (∀ (ρ : Type) (pool : Except Unit (List ρ)),
        DatabaseService.deletePool pool = Except.error () ↔ pool = Except.error ()) := by
  refine ⟨fun ρ e => rfl, fun ρ π pkOf e => rfl,
    fun ρ pools => List.length_map pools _, fun ρ pool => ?_⟩
  cases pool with
  | ok rows => simp [DatabaseService.deletePool, Except.bind]
  | error e => simp [DatabaseService.deletePool, Except.bind]

/-- **C5, counterexample.**  The claim says every store-access operation —
including `delete` — absorbs statement failures and never lets an exception
propagate.  On the code, `delete` has no try/catch: a failing pool call
propagates its exception to the caller. -/
theorem delete_error_propagates_counterexample :
    DatabaseService.deletePool (ρ := Unit) (Except.error ()) = Except.error () := rfl

/-! ## Claim C6 -/

/-- **C6 (amended).**  For a non-empty id list, `delete(table, ids)` removes
exactly the rows whose primary key is in `ids` and no others — in
particular, ids with no corresponding row are a harmless no-op, and if no
id has a corresponding row the table is returned unchanged with no error.
Amendment: on an *empty* id list the built statement `... WHERE id IN ()`
is invalid, and since `delete` has no catch the call raises rather than
being a no-op (`delete_empty_ids_counterexample`); the repository callers
(`burnCards`, `burnPasses`) guard every call with a non-emptiness check, so
the burn operations as a whole are no-ops on empty input. -/
theorem delete_by_ids_amended {α : Type} (t : List (RowC Int α)) (ids : List Int)
    (h : ids ≠ []) :
    DatabaseService.delete t ids =
      Except.ok (t.filter (fun r => !(decide (r.pk ∈ ids))))
    ∧ ((∀ i ∈ ids, hasPk t i = false) → DatabaseService.delete t ids = Except.ok t) := by
  constructor
  · simp [DatabaseService.delete, List.isEmpty_iff, h]
  · intro hnone
    have hfix : t.filter (fun r => !(decide (r.pk ∈ ids))) = t := by
      apply List.filter_eq_self.mpr
      intro r hr
      have : r.pk ∉ ids := by
        intro hmem
        have := hnone r.pk hmem
        rw [Bool.eq_false_iff] at this
        exact this ((hasPk_iff t r.pk).mpr (List.mem_map_of_mem RowC.pk hr))
      simp [this]
    simp [DatabaseService.delete, List.isEmpty_iff, h, hfix]

/-- A concrete two-row table for the delete claims. -/
def delT0 : List (RowC Int String) := [⟨1, "a"⟩, ⟨2, "b"⟩]

/-- **C6, witness.**  Deleting ids `[2, 5]` (5 has no row) removes exactly
row 2; deleting the absent ids `[7]` returns the table unchanged. -/
theorem delete_by_ids_amended_witness :
    (DatabaseService.delete delT0 [2, 5] =
      Except.ok (delT0.filter (fun r => !(decide (r.pk ∈ ([2, 5] : List Int)))))
    ∧ ((∀ i ∈ ([2, 5] : List Int), hasPk delT0 i = false) →
        DatabaseService.delete delT0 [2, 5] = Except.ok delT0))
    ∧ DatabaseService.delete delT0 [7] = Except.ok delT0 :=
  ⟨delete_by_ids_amended delT0 [2, 5] (by decide),
   (delete_by_ids_amended delT0 [7] (by decide)).2 (by decide)⟩

/-- **C6, counterexample.**  The claim says `delete` is a no-op that raises
no error on an empty ids list; on the code the empty list yields the
invalid statement `DELETE FROM t WHERE id IN ()`, whose failure `delete`
does not catch. -/
theorem delete_empty_ids_counterexample :
    DatabaseService.delete delT0 [] = Except.error () := rfl

/-! ## Dimension ("enum") tables -/

/-- A dimension table (`ELEMENT`, `RARITY`, `FAMILY`, `CTA_USER`): rows of
(serial surrogate id, name/address) with the name column UNIQUE, plus the
next value of the id sequence. -/
structure EnumTable where
  rows : List (Nat × String)
  nextId : Nat
deriving DecidableEq

/-- `DatabaseService.insert` on a dimension table:
`INSERT INTO t(name) VALUES ... ON CONFLICT DO NOTHING RETURNING id`.
Rows are attempted in order; a name already present — in the table or
earlier in the same statement — conflicts with the UNIQUE constraint and is
skipped; every attempted row consumes one value of the serial id sequence
(PostgreSQL evaluates the default before resolving the conflict); the ids
actually inserted are returned in order. -/
def enumInsert : EnumTable → List String → EnumTable × List Nat
  | t, [] => (t, [])
  | t, n :: ns =>
    if t.rows.any (fun r => decide (r.2 = n)) then
      enumInsert { t with nextId := t.nextId + 1 } ns
    else
      let p := enumInsert
        { rows := t.rows ++ [(t.nextId, n)], nextId := t.nextId + 1 } ns
      (p.1, t.nextId :: p.2)

/-- The name → surrogate-id map `Repository._get_enum_table` reads back
(`new Map(rows.map(r => [r[field], r.id]))`); the name column is UNIQUE,
so at most one row carries a given name. -/
def lookupName : List (Nat × String) → String → Option Nat
  | [], _ => none
  | r :: t, n => if r.2 = n then some r.1 else lookupName t n

/-- `Repository._insertNewValuesInEnumTable` (combined CTAManager/Repository
source, lines 591-611): read the existing values of the dimension, keep
only the submitted items not already present, and bulk-insert those (the
no-new-values branch only logs). -/
def Repository.insertNewValuesInEnumTable (t : EnumTable) (items : List String) :
    EnumTable :=
  let existingValues := t.rows.map Prod.snd
  let newValues := items.filter (fun v => !(decide (v ∈ existingValues)))
  if newValues.length > 0 then (enumInsert t newValues).1 else t

theorem enumInsert_rows (t : EnumTable) (ns : List String) :
    ∃ added : List (Nat × String),
      (enumInsert t ns).1.rows = t.rows ++ added ∧ ∀ p ∈ added, p.2 ∈ ns := by
  induction ns generalizing t with
  | nil => exact ⟨[], by simp [enumInsert]⟩
  | cons n ns ih =>
    cases hc : t.rows.any (fun r => decide (r.2 = n)) with
    | true =>
      simp only [enumInsert, hc, if_true]
      rcases ih { t with nextId := t.nextId + 1 } with ⟨added, ha, hmem⟩
      exact ⟨added, by simpa using ha,
        fun p hp => List.mem_cons_of_mem n (hmem p hp)⟩
    | false =>
      simp only [enumInsert, hc, Bool.false_eq_true, if_false]
      rcases ih { rows := t.rows ++ [(t.nextId, n)], nextId := t.nextId + 1 } with
        ⟨added, ha, hmem⟩
      refine ⟨(t.nextId, n) :: added, ?_, ?_⟩
      · simpa [List.append_assoc] using ha
      · intro p hp
        rcases List.mem_cons.mp hp with he | hm
        · rw [he]; exact List.mem_cons_self n ns
        · exact List.mem_cons_of_mem n (hmem p hm)

/-! ## Claim C4 -/

/-- **C4.**  For every dimension table and every candidate list, the
dimension update only appends rows: the stored rows persist unchanged as a
prefix of the result, every appended row carries a submitted name that was
not already present, and for every name already in the table the set of
rows carrying that name — in particular its surrogate id — is exactly what
it was before, so re-submitting an existing value creates no duplicate row
and leaves its id unchanged. -/
theorem enum_table_append_only (t : EnumTable) (items : List String) :
    ((Repository.insertNewValuesInEnumTable t items).rows.take t.rows.length
        = t.rows)
    ∧ (∀ p ∈ (Repository.insertNewValuesInEnumTable t items).rows.drop
          t.rows.length, p.2 ∈ items ∧ p.2 ∉ t.rows.map Prod.snd)
    ∧ (∀ n ∈ t.rows.map Prod.snd,
        (Repository.insertNewValuesInEnumTable t items).rows.filter
            (fun r => decide (r.2 = n))
          = t.rows.filter (fun r => decide (r.2 = n))) := by
  unfold Repository.insertNewValuesInEnumTable
  cases hc : (items.filter
      (fun v => !(decide (v ∈ t.rows.map Prod.snd)))).length with
  | zero =>
    simp only [hc, gt_iff_lt, Nat.lt_irrefl, if_false]
    refine ⟨List.take_length t.rows, ?_, fun n _ => trivial⟩
    intro p hp
    rw [List.drop_length] at hp
    exact absurd hp (List.not_mem_nil p)
  | succ m =>
    simp only [hc, gt_iff_lt, Nat.succ_pos, if_pos]
    rcases enumInsert_rows t
        (items.filter (fun v => !(decide (v ∈ t.rows.map Prod.snd)))) with
      ⟨added, ha, hmem⟩
    rw [ha]
    have haddprop : ∀ p ∈ added, p.2 ∈ items ∧ p.2 ∉ t.rows.map Prod.snd := by
      intro p hp
      rcases List.mem_filter.mp (hmem p hp) with ⟨hitems, hnot⟩
      simp only [Bool.not_eq_eq_eq_not, Bool.not_true, decide_eq_false_iff_not] at hnot
      exact ⟨hitems, hnot⟩
    refine ⟨List.take_left t.rows added, ?_, ?_⟩
    · intro p hp
      rw [List.drop_left t.rows added] at hp
      exact haddprop p hp
    · intro n hn
      rw [List.filter_append]
      have hadd : added.filter (fun r => decide (r.2 = n)) = [] := by
        apply List.filter_eq_nil_iff.mpr
        intro p hp
        have := (haddprop p hp).2
        simp only [decide_eq_true_eq]
        intro he
        exact this (he ▸ hn)
      rw [hadd, List.append_nil]

/-- A dimension table already holding the element `FIRE` with id 1. -/
def enumT0 : EnumTable := ⟨[(1, "FIRE")], 2⟩

/-- A candidate list re-submitting `FIRE` alongside a new value. -/
def enumItems0 : List String := ["FIRE", "WATER"]

/-- **C4, witness.**  Re-submitting `FIRE` together with the new `WATER`:
the stored rows persist as a prefix, and the rows carrying `FIRE` — hence
its surrogate id — are exactly as before. -/
theorem enum_table_append_only_witness :
    ((Repository.insertNewValuesInEnumTable enumT0 enumItems0).rows.take
        enumT0.rows.length = enumT0.rows)
    ∧ ((Repository.insertNewValuesInEnumTable enumT0 enumItems0).rows.filter
          (fun r => decide (r.2 = "FIRE"))
        = enumT0.rows.filter (fun r => decide (r.2 = "FIRE"))) :=
  ⟨(enum_table_append_only enumT0 enumItems0).1,
   (enum_table_append_only enumT0 enumItems0).2.2 ("FIRE") (by decide)⟩

/-! ## Statement construction (pg-format) at the character level

`DatabaseService` builds its statements with JavaScript template literals
plus pg-format's `%L` placeholder.  `%L` renders a string value as a
single-quoted SQL literal with embedded quotes doubled; an array becomes a
comma-separated list, a nested array a parenthesised tuple.  The statements
are modelled as `List Char` (whitespace condensed to single spaces — the
multi-line templates differ only in whitespace).  `sqlMask` extracts the
*structure* of a statement: it runs the SQL lexer's quote rule (a literal
starts and ends with `'`, a doubled `''` inside stays in the literal) and
replaces every complete literal with the placeholder `?`, leaving all
text outside literals unchanged.  "No input value can alter the structure
of the issued statement" is then: the mask is independent of the embedded
values. -/

/-- The single-quote character. -/
def sq : Char := Char.ofNat 39

/-- pg-format's literal escaping: every embedded quote is doubled. -/
def escLit : List Char → List Char
  | [] => []
  | c :: cs => if c = sq then sq :: sq :: escLit cs else c :: escLit cs

/-- pg-format's `%L` on one string value: a single-quoted literal. -/
def fmtLit (v : List Char) : List Char := sq :: (escLit v ++ [sq])

/-- pg-format's `%L` on an array of string values: literals joined by
a comma and space. -/
def fmtRowVals : List (List Char) → List Char
  | [] => []
  | [v] => fmtLit v
  | v :: w :: vs => fmtLit v ++ ',' :: ' ' :: fmtRowVals (w :: vs)

/-- pg-format's `%L` on a nested array: a parenthesised tuple. -/
def fmtRow (vs : List (List Char)) : List Char := '(' :: (fmtRowVals vs ++ [')'])

/-- pg-format's `%L` on an array of arrays: tuples joined by a comma and
space (the `VALUES` list of a bulk insert). -/
def fmtRows : List (List (List Char)) → List Char
  | [] => []
  | [r] => fmtRow r
  | r :: s :: rs => fmtRow r ++ ',' :: ' ' :: fmtRows (s :: rs)

/-- The quote-rule scanner behind `sqlMask`; the boolean is the
inside-a-literal state.  A completed literal is emitted as `?`. -/
def maskAux : Bool → List Char → List Char
  | false, [] => []
  | false, c :: cs => if c = sq then maskAux true cs else c :: maskAux false cs
  | true, [] => []
  | true, [c] => if c = sq then ['?'] else []
  | true, c :: d :: cs =>
    if c = sq then
      if d = sq then maskAux true cs
      else '?' :: maskAux false (d :: cs)
    else maskAux true (d :: cs)

/-- The structure of a statement: all quoted literals replaced by `?`. -/
def sqlMask (s : List Char) : List Char := maskAux false s

/-- `DatabaseService.insert`'s statement (src/DatabaseService.js lines
87-97): table name, field list and pk name are interpolated raw from the
repository's fixed schema constants; the row values go through `%L`. -/
def insertStmtText (tableName fieldString pkName : List Char)
    (newRows : List (List (List Char))) : List Char :=
  ("INSERT INTO ").data ++ tableName ++ '(' :: (fieldString ++ (") VALUES ").data
    ++ fmtRows newRows
    ++ (" ON CONFLICT DO NOTHING RETURNING ").data ++ pkName)

/-- `DatabaseService.update`'s per-row statement (src/DatabaseService.js
lines 114-121): the SET tuple goes through `%L`, but the primary-key value
in the WHERE clause is interpolated raw by the template literal. -/
def updateStmtText (tableName fieldString pkName pkValue : List Char)
    (fieldValues : List (List Char)) : List Char :=
  ("UPDATE ").data ++ tableName ++ (" SET (").data ++ fieldString
    ++ (") = ").data ++ fmtRow fieldValues
    ++ (" WHERE ").data ++ pkName ++ (" = ").data ++ pkValue

/-- `DatabaseService.delete`'s statement (src/DatabaseService.js line 70):
the id list goes through `%L`. -/
def deleteStmtText (tableName : List Char) (ids : List (List Char)) : List Char :=
  ("DELETE FROM ").data ++ tableName ++ (" WHERE id IN (").data
    ++ fmtRowVals ids ++ [')']

/-- No quote character occurs in `l`. -/
abbrev sqFree (l : List Char) : Prop := sq ∉ l

/-- `l` does not start with a quote character. -/
def noLeadSq : List Char → Prop
  | [] => True
  | c :: _ => ¬(c = sq)

theorem maskAux_false_cons_ne (c : Char) (l : List Char) (h : ¬(c = sq)) :
    maskAux false (c :: l) = c :: maskAux false l := by
  simp [maskAux, h]

theorem maskAux_true_cons_ne (c : Char) (l : List Char) (h : ¬(c = sq)) :
    maskAux true (c :: l) = maskAux true l := by
  cases l with
  | nil => simp [maskAux, h]
  | cons d ds => simp [maskAux, h]

theorem maskAux_false_append_sqFree (a b : List Char) (h : sqFree a) :
    maskAux false (a ++ b) = a ++ maskAux false b := by
  induction a with
  | nil => rfl
  | cons c a ih =>
    simp only [sqFree, List.mem_cons, not_or] at h
    rw [List.cons_append, maskAux_false_cons_ne c _ (fun e => h.1 e.symm), ih h.2,
      List.cons_append]

theorem maskAux_false_sqFree (a : List Char) (h : sqFree a) :
    maskAux false a = a := by
  have := maskAux_false_append_sqFree a [] h
  simpa [maskAux] using this

theorem maskAux_true_esc (s r : List Char) (hr : noLeadSq r) :
    maskAux true (escLit s ++ sq :: r) = '?' :: maskAux false r := by
  induction s with
  | nil =>
    cases r with
    | nil => simp [escLit, maskAux]
    | cons d ds =>
      have hd : ¬(d = sq) := hr
      simp [escLit, maskAux, hd]
  | cons c cs ih =>
    by_cases hc : c = sq
    · rw [show escLit (c :: cs) = sq :: sq :: escLit cs by simp [escLit, hc]]
      simp only [List.cons_append]
      rw [show maskAux true (sq :: sq :: (escLit cs ++ sq :: r))
          = maskAux true (escLit cs ++ sq :: r) by simp [maskAux]]
      exact ih
    · rw [show escLit (c :: cs) = c :: escLit cs by simp [escLit, hc]]
      rw [List.cons_append, maskAux_true_cons_ne c _ hc]
      exact ih

theorem mask_fmtLit (v r : List Char) (hr : noLeadSq r) :
    maskAux false (fmtLit v ++ r) = '?' :: maskAux false r := by
  rw [show fmtLit v ++ r = sq :: (escLit v ++ sq :: r) by
    simp [fmtLit, List.append_assoc]]
  rw [show maskAux false (sq :: (escLit v ++ sq :: r))
      = maskAux true (escLit v ++ sq :: r) by simp [maskAux]]
  exact maskAux_true_esc v r hr

/-- The mask of a `%L` value list of length `n`. -/
def rowValsMask : Nat → List Char
  | 0 => []
  | 1 => ['?']
  | n + 2 => '?' :: ',' :: ' ' :: rowValsMask (n + 1)

theorem mask_fmtRowVals (vs : List (List Char)) (r : List Char) (hr : noLeadSq r) :
    maskAux false (fmtRowVals vs ++ r) = rowValsMask vs.length ++ maskAux false r := by
  induction vs with
  | nil => simp [fmtRowVals, rowValsMask]
  | cons v vs ih =>
    cases vs with
    | nil =>
      simp only [fmtRowVals, List.length_cons, List.length_nil, rowValsMask]
      rw [mask_fmtLit v r hr]
      rfl
    | cons w ws =>
      rw [show fmtRowVals (v :: w :: ws) = fmtLit v ++ ',' :: ' ' :: fmtRowVals (w :: ws)
        from rfl]
      rw [List.append_assoc, List.cons_append, List.cons_append]
      rw [mask_fmtLit v _ (by simp [noLeadSq, sq])]
      rw [maskAux_false_cons_ne ',' _ (by simp [sq]),
        maskAux_false_cons_ne ' ' _ (by simp [sq])]
      rw [ih]
      rw [show (v :: w :: ws).length = ((w :: ws).length) + 1 from rfl]
      rw [show ((w :: ws).length) + 1 = ws.length + 2 by simp]
      simp [rowValsMask]

theorem mask_fmtRow (vs : List (List Char)) (r : List Char) (hr : noLeadSq r) :
    maskAux false (fmtRow vs ++ r)
      = '(' :: (rowValsMask vs.length ++ ')' :: maskAux false r) := by
  rw [show fmtRow vs ++ r = '(' :: (fmtRowVals vs ++ ')' :: r) by
    simp [fmtRow, List.append_assoc]]
  rw [maskAux_false_cons_ne '(' _ (by simp [sq])]
  rw [mask_fmtRowVals vs _ (by simp [noLeadSq, sq])]
  rw [maskAux_false_cons_ne ')' _ (by simp [sq])]

/-- The mask of a `%L` tuple list with value counts `ns`. -/
def rowsMask : List Nat → List Char
  | [] => []
  | [n] => '(' :: (rowValsMask n ++ [')'])
  | n :: m :: ms => '(' :: (rowValsMask n ++ ')' :: ',' :: ' ' :: rowsMask (m :: ms))

theorem mask_fmtRows (rs : List (List (List Char))) (r : List Char)
    (hr : noLeadSq r) :
    maskAux false (fmtRows rs ++ r)
      = rowsMask (rs.map List.length) ++ maskAux false r := by
  induction rs with
  | nil => simp [fmtRows, rowsMask]
  | cons v rs ih =>
    cases rs with
    | nil =>
      simp only [fmtRows, List.map_cons, List.map_nil, rowsMask]
      rw [mask_fmtRow v r hr]
      simp [List.append_assoc]
    | cons w ws =>
      rw [show fmtRows (v :: w :: ws) = fmtRow v ++ ',' :: ' ' :: fmtRows (w :: ws)
        from rfl]
      rw [List.append_assoc, List.cons_append, List.cons_append]
      rw [mask_fmtRow v _ (by simp [noLeadSq, sq])]
      rw [maskAux_false_cons_ne ',' _ (by simp [sq]),
        maskAux_false_cons_ne ' ' _ (by simp [sq])]
      rw [ih]
      simp [rowsMask, List.append_assoc]

/-! ## Claim C9 -/

theorem sqFree_append (a b : List Char) (ha : sqFree a) (hb : sqFree b) :
    sqFree (a ++ b) := by
  simp only [sqFree, List.mem_append, not_or] at *
  exact ⟨ha, hb⟩

/-- **C9 (amended).**  The row field values of `insert`, the SET tuple of
`update` and the id list of `delete` all pass through pg-format's `%L`
literal escaping, so no such value can alter the structure of the issued
statement: for any two value assignments of the same shape — whatever the
characters of the values, embedded quotes included — the statements have
the same mask (identical text outside quoted literals).  Amendment: the
primary-key value in `update`'s WHERE clause is *not* escaped — it is
interpolated raw by the template literal — so the structural invariance
for `update` only holds with the WHERE-clause key value held fixed; a
crafted key value does alter the statement structure
(`update_where_clause_injection_counterexample`). -/
theorem statement_values_escaped_amended
    (tableName fieldString pkName pkValue : List Char)
    (htab : sqFree tableName) (hf : sqFree fieldString) (hpk : sqFree pkName)
    (rows1 rows2 : List (List (List Char)))
    (hshape : rows1.map List.length = rows2.map List.length)
    (vals1 vals2 : List (List Char)) (hv : vals1.length = vals2.length)
    (ids1 ids2 : List (List Char)) (hi : ids1.length = ids2.length) :
    sqlMask (insertStmtText tableName fieldString pkName rows1)
      = sqlMask (insertStmtText tableName fieldString pkName rows2)
    ∧ sqlMask (updateStmtText tableName fieldString pkName pkValue vals1)
      = sqlMask (updateStmtText tableName fieldString pkName pkValue vals2)
    ∧ sqlMask (deleteStmtText tableName ids1)
      = sqlMask (deleteStmtText tableName ids2) := by
  refine ⟨?_, ?_, ?_⟩
  · have hform : ∀ rows : List (List (List Char)),
        insertStmtText tableName fieldString pkName rows
        = (("INSERT INTO ").data ++ tableName
            ++ '(' :: (fieldString ++ (") VALUES ").data))
          ++ (fmtRows rows
            ++ ((" ON CONFLICT DO NOTHING RETURNING ").data ++ pkName)) := by
      intro rows
      simp [insertStmtText, List.append_assoc]
    have hP : sqFree (("INSERT INTO ").data ++ tableName
        ++ '(' :: (fieldString ++ (") VALUES ").data)) := by
      apply sqFree_append
      · exact sqFree_append _ _ (by decide) htab
      · show sq ∉ '(' :: (fieldString ++ (") VALUES ").data)
        intro hmem
        rcases List.mem_cons.mp hmem with he | hm
        · exact absurd he (by decide)
        · rcases List.mem_append.mp hm with h1 | h2
          · exact hf h1
          · exact absurd h2 (by decide)
    have hS : noLeadSq ((" ON CONFLICT DO NOTHING RETURNING ").data ++ pkName) := by
      rw [show (" ON CONFLICT DO NOTHING RETURNING ").data
          = ' ' :: ("ON CONFLICT DO NOTHING RETURNING ").data by decide,
        List.cons_append]
      simp [noLeadSq, sq]
    rw [hform rows1, hform rows2]
    unfold sqlMask
    rw [maskAux_false_append_sqFree _ _ hP, maskAux_false_append_sqFree _ _ hP,
      mask_fmtRows _ _ hS, mask_fmtRows _ _ hS, hshape]
  · have hform : ∀ vals : List (List Char),
        updateStmtText tableName fieldString pkName pkValue vals
        = (("UPDATE ").data ++ tableName ++ (" SET (").data ++ fieldString
            ++ (") = ").data)
          ++ (fmtRow vals
            ++ ((" WHERE ").data ++ (pkName ++ ((" = ").data ++ pkValue)))) := by
      intro vals
      simp [updateStmtText, List.append_assoc]
    have hP : sqFree (("UPDATE ").data ++ tableName ++ (" SET (").data
        ++ fieldString ++ (") = ").data) := by
      apply sqFree_append
      · apply sqFree_append
        · exact sqFree_append _ _ (sqFree_append _ _ (by decide) htab) (by decide)
        · exact hf
      · decide
    have hS : noLeadSq ((" WHERE ").data ++ (pkName ++ ((" = ").data ++ pkValue))) := by
      rw [show (" WHERE ").data = ' ' :: ("WHERE ").data by decide,
        List.cons_append]
      simp [noLeadSq, sq]
    rw [hform vals1, hform vals2]
    unfold sqlMask
    rw [maskAux_false_append_sqFree _ _ hP, maskAux_false_append_sqFree _ _ hP,
      mask_fmtRow _ _ hS, mask_fmtRow _ _ hS, hv]
  · have hform : ∀ ids : List (List Char),
        deleteStmtText tableName ids
        = (("DELETE FROM ").data ++ tableName ++ (" WHERE id IN (").data)
          ++ (fmtRowVals ids ++ [')']) := by
      intro ids
      simp [deleteStmtText, List.append_assoc]
    have hP : sqFree (("DELETE FROM ").data ++ tableName
        ++ (" WHERE id IN (").data) := by
      exact sqFree_append _ _ (sqFree_append _ _ (by decide) htab) (by decide)
    have hS : noLeadSq ([')'] : List Char) := by
      simp [noLeadSq, sq]
    rw [hform ids1, hform ids2]
    unfold sqlMask
    rw [maskAux_false_append_sqFree _ _ hP, maskAux_false_append_sqFree _ _ hP,
      mask_fmtRowVals _ _ hS, mask_fmtRowVals _ _ hS, hi]

/-- **C9, witness.**  On the `CARD` table with fields `id,name`: changing
the insert row values, the update SET values or the delete ids — even to
values containing an embedded quote character — leaves the statement
structure unchanged. -/
theorem statement_values_escaped_witness :
    sqlMask (insertStmtText (("CARD").data) (("id,name").data) (("id").data)
        [[("1").data, ("alice").data]])
      = sqlMask (insertStmtText (("CARD").data) (("id,name").data) (("id").data)
        [[("2").data, sq :: ("x OR 1=1").data]])
    ∧ sqlMask (updateStmtText (("CARD").data) (("id,name").data) (("id").data)
        (("7").data) [("7").data, ("bob").data])
      = sqlMask (updateStmtText (("CARD").data) (("id,name").data) (("id").data)
        (("7").data) [("7").data, sq :: ("y").data])
    ∧ sqlMask (deleteStmtText (("CARD").data) [("1").data])
      = sqlMask (deleteStmtText (("CARD").data) [sq :: ("z").data]) :=
  statement_values_escaped_amended (("CARD").data) (("id,name").data)
    (("id").data) (("7").data) (by decide) (by decide) (by decide)
    [[("1").data, ("alice").data]] [[("2").data, sq :: ("x OR 1=1").data]]
    (by decide)
    [("7").data, ("bob").data] [("7").data, sq :: ("y").data] (by decide)
    [("1").data] [sq :: ("z").data] (by decide)

/-- **C9, counterexample.**  The claim says *every* literal value the layer
embeds — including the primary-key value in `update`'s WHERE clause — is
escaped or parameterized so that no input value can alter the statement's
structure.  On the code, that key value is interpolated raw: the same
update issued with key text `7` and with key text `7 OR 1=1` produces
statements with different structure (different text outside quoted
literals). -/
theorem update_where_clause_injection_counterexample :
    ¬(sqlMask (updateStmtText (("CARD").data) (("id,name").data) (("id").data)
          (("7").data) [("7").data, ("bob").data])
        = sqlMask (updateStmtText (("CARD").data) (("id,name").data) (("id").data)
          (("7 OR 1=1").data) [("7").data, ("bob").data])) := by
  decide

/-! ## Assets and page classification (`CTAManager`)

Upstream records as fetched from the feed.  Token identifiers are decimal
strings upstream and are parsed with `parseInt` by the manager; they are
modelled directly as `Int`.  `updated_at`/ISO timestamps are ordered
lexicographically, which is their chronological order; the `updated_at`
used for checkpoint ordering is modelled as `Nat` (while `created_at`,
never compared, stays a `String`). -/

/-- The `metadata` block of an upstream asset (the JS field `set` is the
card family). -/
structure AssetMetadata where
  tokenType : String
  name : String
  description : String
  numbering : Int
  image : String
  rarity : String
  set : String
  element : String
  power : Int
  foil : Bool
  rank : Int
  grade : String
  potential : Int
  advancement : String
  cardType : String
  animationLevel : Int
deriving DecidableEq

/-- An upstream asset record. -/
structure Asset where
  user : String
  status : String
  token_id : Int
  metadata : AssetMetadata
  created_at : String
  updated_at : Nat
deriving DecidableEq

/-- Split a character list on a separator character (used to model
`url.substring(url.lastIndexOf("/") + 1)` and `filename.split("-")`). -/
def splitOnChar (c : Char) : List Char → List (List Char)
  | [] => [[]]
  | d :: ds =>
    match splitOnChar c ds with
    | [] => [[]]
    | g :: gs => if d = c then [] :: g :: gs else (d :: g) :: gs

/-- `url.substring(url.lastIndexOf("/") + 1)`: the last slash-separated
component (the whole string when there is no slash). -/
def afterLastSlash (s : String) : String :=
  String.mk ((splitOnChar '/' s.data).getLastD s.data)

/-- JS `String.replace(pat, "")` with a plain-string pattern: remove the
first occurrence of `pat`, if any. -/
def removeFirst (pat : List Char) : List Char → List Char
  | [] => []
  | c :: cs =>
    if pat.isPrefixOf (c :: cs) then (c :: cs).drop pat.length
    else c :: removeFirst pat cs

/-- `getMintPassType` (src/CTAManager.js lines 20-24): the image-url
filename with its `.png` extension removed. -/
def getMintPassType (asset : Asset) : String :=
  String.mk (removeFirst ((".png").data)
    ((afterLastSlash asset.metadata.image).data))

/-- `getMetaCardId` (src/CTAManager.js lines 30-34): the image-url filename
up to the first dash. -/
def getMetaCardId (asset : Asset) : String :=
  String.mk ((splitOnChar '-' ((afterLastSlash asset.metadata.image).data)).headD [])

/-- A `CARD_META` candidate as built by the classification pass. -/
structure MetaCand where
  id : String
  name : String
  description : String
  imageUrl : String
  element : String
  rarity : String
  family : String
  advancement : String
  cardType : String
deriving DecidableEq

/-- A `CARD` candidate as built by the classification pass. -/
structure CardCand where
  id : Int
  card_meta_id : String
  user : String
  status : String
  foil : Bool
  rank : Int
  grade : String
  power : Int
  potential : Int
  numbering : Int
  animationLevel : Int
  created_at : String
  updated_at : Nat
deriving DecidableEq

/-- A `MINT_PASS` candidate as built by the classification pass. -/
structure PassCand where
  id : Int
  passType : String
  user : String
  numbering : Int
  created_at : String
  updated_at : Nat
deriving DecidableEq

/-- The classification maps and sets of one loop iteration of
`CTAManager.update`: the JS `Map`s/`Set`s in insertion order. -/
structure Classified where
  metaCards : List MetaCand
  mintPassTypes : List MPTCand
  users : List String
  rarities : List String
  elements : List String
  families : List String
  cards : List CardCand
  mintPasses : List PassCand
deriving DecidableEq

/-- The fresh, empty classification state of a loop iteration. -/
def emptyClassified : Classified := ⟨[], [], [], [], [], [], [], []⟩

/-- JS `Set.add`: append the value unless already present. -/
def addString (l : List String) (x : String) : List String :=
  if x ∈ l then l else l ++ [x]

/-- `if (!map.has(key)) map.set(key, cand)` keyed on `passType`. -/
def addMPTCand (l : List MPTCand) (x : MPTCand) : List MPTCand :=
  if l.any (fun p => decide (p.passType = x.passType)) then l else l ++ [x]

/-- `if (!map.has(tokenId)) map.set(tokenId, cand)` for mint passes. -/
def addPassCand (l : List PassCand) (x : PassCand) : List PassCand :=
  if l.any (fun p => decide (p.id = x.id)) then l else l ++ [x]

/-- `if (!map.has(metaCardId)) map.set(metaCardId, cand)` for meta cards. -/
def addMetaCand (l : List MetaCand) (x : MetaCand) : List MetaCand :=
  if l.any (fun p => decide (p.id = x.id)) then l else l ++ [x]

/-- `if (!map.has(tokenId)) map.set(tokenId, cand)` for cards. -/
def addCardCand (l : List CardCand) (x : CardCand) : List CardCand :=
  if l.any (fun p => decide (p.id = x.id)) then l else l ++ [x]

/-- The per-asset body of the classification `forEach` (combined
CTAManager/Repository source lines 146-248): a `MINT_PASS` record feeds the
pass-type map and the pass map; a `CARD` record feeds the element, rarity,
family and owner-address dimension sets, the meta-card map and the card
map.  An asset of any other kind is ignored.  Note that only the `CARD`
branch adds `asset.user` to the `users` set. -/
def classifyStep (acc : Classified) (asset : Asset) : Classified :=
  let accp :=
    if asset.metadata.tokenType = "MINT_PASS" then
      let passType := getMintPassType asset
      let acc1 := { acc with
        mintPassTypes := addMPTCand acc.mintPassTypes
          ⟨passType, asset.metadata.name, asset.metadata.description,
            asset.metadata.image⟩ }
      { acc1 with
        mintPasses := addPassCand acc1.mintPasses
          ⟨asset.token_id, passType, asset.user, asset.metadata.numbering,
            asset.created_at, asset.updated_at⟩ }
    else acc
  if asset.metadata.tokenType = "CARD" then
    let metaCardId := getMetaCardId asset
    let acc2 := { accp with
      elements := addString accp.elements asset.metadata.element,
      rarities := addString accp.rarities asset.metadata.rarity,
      families := addString accp.families asset.metadata.set,
      users := addString accp.users asset.user }
    let acc3 := { acc2 with
      metaCards := addMetaCand acc2.metaCards
        ⟨metaCardId, asset.metadata.name, asset.metadata.description,
          asset.metadata.image, asset.metadata.element, asset.metadata.rarity,
          asset.metadata.set, asset.metadata.advancement,
          asset.metadata.cardType⟩ }
    { acc3 with
      cards := addCardCand acc3.cards
        ⟨asset.token_id, metaCardId, asset.user, asset.status,
          asset.metadata.foil, asset.metadata.rank, asset.metadata.grade,
          asset.metadata.power, asset.metadata.potential,
          asset.metadata.numbering, asset.metadata.animationLevel,
          asset.created_at, asset.updated_at⟩ }
  else accp

/-- The classification pass of one loop iteration of `CTAManager.update`
(combined source lines 143-248): the non-burned assets, in order. -/
def classifyAssets (assets : List Asset) : Classified :=
  (assets.filter (fun a => decide (a.status ≠ "burned"))).foldl classifyStep
    emptyClassified

/-! ## The relational store (`Repository`) -/

/-- A `CARD_META` row's non-key columns. -/
structure MetaContent where
  name : String
  description : String
  image_url : String
  advancement : String
  card_type : String
  element_id : Option Nat
  rarity_id : Option Nat
  family_id : Option Nat
deriving DecidableEq

/-- A `CARD` row's non-key columns (`foil` is stored as the integer the
repository converts it to). -/
structure CardContent where
  foil : Nat
  rank : Int
  grade : String
  animationLevel : Int
  numbering : Int
  power : Int
  created_at : String
  updated_at : Nat
  card_meta_id : String
  user_id : Option Nat
deriving DecidableEq

/-- A `MINT_PASS` row's non-key columns. -/
structure PassContent where
  numbering : Int
  created_at : String
  updated_at : Nat
  mint_pass_type_id : Option Nat
  user_id : Option Nat
deriving DecidableEq

/-- An `UPDATE_HISTORY` checkpoint row (the serial id column is omitted;
rows are only ever appended). -/
structure HistRow where
  update_timestamp : Nat
  last_asset_timestamp : Nat
  assets_count : Nat
deriving DecidableEq

/-- The whole relational store. -/
structure DB where
  elements : EnumTable
  rarities : EnumTable
  families : EnumTable
  users : EnumTable
  cardMeta : List (RowC String MetaContent)
  cards : List (RowC Int CardContent)
  mintPassTypes : MPTTable
  mintPasses : List (RowC Int PassContent)
  history : List HistRow
deriving DecidableEq

/-- `Repository._read_mint_pass_types`: the pass_type → id map (`pass_type`
values are unique in practice, the repository only ever inserting new
ones). -/
def lookupPassType : List MPTRow → String → Option Nat
  | [], _ => none
  | r :: t, n => if r.pass_type = n then some r.id else lookupPassType t n

/-- `Repository.updateElements`. -/
def Repository.updateElements (db : DB) (elements : List String) : DB :=
  { db with elements := Repository.insertNewValuesInEnumTable db.elements elements }

/-- `Repository.updateRarities`. -/
def Repository.updateRarities (db : DB) (rarities : List String) : DB :=
  { db with rarities := Repository.insertNewValuesInEnumTable db.rarities rarities }

/-- `Repository.updateFamilies`. -/
def Repository.updateFamilies (db : DB) (families : List String) : DB :=
  { db with families := Repository.insertNewValuesInEnumTable db.families families }

/-- `Repository.updateUsers`. -/
def Repository.updateUsers (db : DB) (users : List String) : DB :=
  { db with users := Repository.insertNewValuesInEnumTable db.users users }

/-- `Repository.updateMetaCards` (combined source lines 735-771): resolve
the dimension names to surrogate ids with freshly read maps, then the
two-phase upsert with `insertPk = true`. -/
def Repository.updateMetaCards (db : DB) (metaCards : List MetaCand) : DB :=
  if metaCards.length ≤ 0 then db
  else
    let rows := metaCards.map (fun r =>
      (⟨r.id, ⟨r.name, r.description, r.imageUrl, r.advancement, r.cardType,
        lookupName db.elements.rows r.element, lookupName db.rarities.rows r.rarity,
        lookupName db.families.rows r.family⟩⟩ : RowC String MetaContent))
    { db with cardMeta := DatabaseService.upsert db.cardMeta rows }

/-- `Repository.updateCards` (combined source lines 777-809): resolve the
owner address to its surrogate id, convert `foil` to an integer, then the
two-phase upsert with `insertPk = true`. -/
def Repository.updateCards (db : DB) (cards : List CardCand) : DB :=
  if cards.length ≤ 0 then db
  else
    let rows := cards.map (fun c =>
      (⟨c.id, ⟨if c.foil then 1 else 0, c.rank, c.grade, c.animationLevel,
        c.numbering, c.power, c.created_at, c.updated_at, c.card_meta_id,
        lookupName db.users.rows c.user⟩⟩ : RowC Int CardContent))
    { db with cards := DatabaseService.upsert db.cards rows }

/-- The `MINT_PASS` row `Repository.updateMintPasses` builds from one
candidate: foreign keys resolved through the freshly read user and
pass-type maps (an unresolvable reference becomes `none`, i.e. SQL
`NULL`). -/
def passRowOf (users : List (Nat × String)) (passTypes : List MPTRow)
    (r : PassCand) : RowC Int PassContent :=
  ⟨r.id, ⟨r.numbering, r.created_at, r.updated_at,
    lookupPassType passTypes r.passType, lookupName users r.user⟩⟩

/-- `Repository.updateMintPasses` (combined source lines 843-869): resolve
pass-type key and owner address to surrogate ids, then the two-phase upsert
with `insertPk = true`. -/
def Repository.updateMintPasses (db : DB) (mintPasses : List PassCand) : DB :=
  if mintPasses.length ≤ 0 then db
  else
    let rows := mintPasses.map (passRowOf db.users.rows db.mintPassTypes.rows)
    { db with mintPasses := DatabaseService.upsert db.mintPasses rows }

/-- `Repository.update` (combined source lines 935-953): the per-page
reconciliation — dimensions first, then meta cards, cards, pass types and
passes, in source order. -/
def Repository.update (db : DB) (c : Classified) : DB :=
  let db1 := Repository.updateElements db c.elements
  let db2 := Repository.updateRarities db1 c.rarities
  let db3 := Repository.updateFamilies db2 c.families
  let db4 := Repository.updateUsers db3 c.users
  let db5 := Repository.updateMetaCards db4 c.metaCards
  let db6 := Repository.updateCards db5 c.cards
  let db7 := { db6 with mintPassTypes :=
    Repository.updateMintPassTypes db6.mintPassTypes c.mintPassTypes }
  Repository.updateMintPasses db7 c.mintPasses

/-- `Repository.burnPasses` (combined source lines 874-879): guarded by a
non-emptiness check, then `DatabaseService.delete` (whose error branch is
unreachable under the guard). -/
def Repository.burnPasses (db : DB) (passIds : List Int) : DB :=
  if 0 < passIds.length then
    match DatabaseService.delete db.mintPasses passIds with
    | Except.ok t => { db with mintPasses := t }
    | Except.error _ => db
  else db

/-- `Repository.burnCards` (combined source lines 884-889). -/
def Repository.burnCards (db : DB) (cardIds : List Int) : DB :=
  if 0 < cardIds.length then
    match DatabaseService.delete db.cards cardIds with
    | Except.ok t => { db with cards := t }
    | Except.error _ => db
  else db

/-- `Repository.burn` (combined source lines 955-958). -/
def Repository.burn (db : DB) (passIds cardIds : List Int) : DB :=
  Repository.burnCards (Repository.burnPasses db passIds) cardIds

/-- `Repository.recordUpdate` (combined source lines 897-914): append one
checkpoint row to `UPDATE_HISTORY`. -/
def Repository.recordUpdate (db : DB) (updateTimestamp lastAssetTimestamp : Nat)
    (assetsCount : Nat) : DB :=
  { db with history :=
      db.history ++ [⟨updateTimestamp, lastAssetTimestamp, assetsCount⟩] }

/-! ## The synchronization cycle (`CTAManager.update`) -/

/-- The burned-asset id collection of one loop iteration (combined source
lines 262-274). -/
def collectBurnedIds (assets : List Asset) : List Int × List Int :=
  (assets.filter (fun a => decide (a.status = "burned"))).foldl
    (fun p a =>
      let p1 := if a.metadata.tokenType = "MINT_PASS" then
        (p.1 ++ [a.token_id], p.2) else p
      if a.metadata.tokenType = "CARD" then (p1.1, p1.2 ++ [a.token_id]) else p1)
    ([], [])

/-- One iteration body of the `while` loop of `CTAManager.update` (combined
source lines 132-289), store effects only: classify the page, apply the
repository update, apply the burns, and — the page being non-empty — append
a checkpoint row carrying the iteration's wall-clock timestamp, the *first*
record's upstream timestamp (`assets[0].updated_at`) and the page length. -/
def CTAManager.processPage (db : DB) (updateTs : Nat) (assets : List Asset) : DB :=
  let c := classifyAssets assets
  let db1 := Repository.update db c
  let burned := collectBurnedIds assets
  let db2 := Repository.burn db1 burned.1 burned.2
  match assets with
  | [] => db2
  | a :: _ => Repository.recordUpdate db2 updateTs a.updated_at assets.length

/-- The manager's retained state: the pagination cursor, the store, and a
wall clock advanced once per loop iteration (each iteration reads
`new Date()` once for its checkpoint). -/
structure MState where
  lastCursor : Option Nat
  db : DB
  clock : Nat
deriving DecidableEq

/-- The upstream feed: `client.listAssets` as a function of the request
cursor, yielding either a thrown error or the response's continuation
cursor together with the page. -/
abbrev Upstream := Option Nat → Except Unit (Nat × List Asset)

/-- `CTAManager._getNewAssetsPage` (src/CTAManager.js lines 74-88): call
`listAssets` with the retained cursor; on success assign the returned
cursor to `lastCursor` and hand back the page; a thrown error leaves
`lastCursor` untouched (the assignment sits after the `await`). -/
def CTAManager.getNewAssetsPage (u : Upstream) (st : MState) :
    Except Unit (MState × List Asset) :=
  match u st.lastCursor with
  | Except.error e => Except.error e
  | Except.ok (cursor, result) =>
      Except.ok ({ st with lastCursor := some cursor }, result)

/-- The `while` loop of `CTAManager.update` (combined source lines
132-301).  `assetsCount` mirrors the JS variable exactly: it is
*reassigned* to the latest page's length at every fetch, never accumulated.
An in-loop fetch failure is caught and ends the cycle with the work done so
far; `fuel` bounds the iteration count (the JS loop has no intrinsic
bound). -/
def CTAManager.updateLoop (u : Upstream) (maxAssets : Nat) :
    Nat → MState → List Asset → Nat → MState
  | 0, st, _, _ => st
  | fuel + 1, st, assets, assetsCount =>
    if 0 < assets.length ∧ assetsCount < maxAssets then
      let st1 : MState :=
        { st with db := CTAManager.processPage st.db st.clock assets,
                  clock := st.clock + 1 }
      match CTAManager.getNewAssetsPage u st1 with
      | Except.error _ => st1
      | Except.ok (st2, assets2) =>
          CTAManager.updateLoop u maxAssets fuel st2 assets2 assets2.length
    else st

/-- `CTAManager.update` (combined source lines 116-304), on the production
`ASSETS_SOURCE = "imx"` path: fetch the first page — aborting silently with
the cursor untouched if the fetch throws — then run the loop with
`assetsCount` initialised to the first page's length.  `maxAssets` is the
configured `MAX_ASSETS_PER_UPDATE` ceiling. -/
def CTAManager.update (u : Upstream) (maxAssets fuel : Nat) (st : MState) : MState :=
  match CTAManager.getNewAssetsPage u st with
  | Except.error _ => st
  | Except.ok (st1, assets) =>
      CTAManager.updateLoop u maxAssets fuel st1 assets assets.length

/-- The empty dimension table. -/
def emptyEnumTable : EnumTable := ⟨[], 1⟩

/-- The freshly created store. -/
def emptyDB : DB :=
  ⟨emptyEnumTable, emptyEnumTable, emptyEnumTable, emptyEnumTable,
    [], [], ⟨[], 1⟩, [], []⟩

/-- The manager's initial state. -/
def st0 : MState := ⟨none, emptyDB, 0⟩

/-! ## History lemmas -/

theorem updateMetaCards_history (db : DB) (mc : List MetaCand) :
    (Repository.updateMetaCards db mc).history = db.history := by
  unfold Repository.updateMetaCards
  split <;> rfl

theorem updateCards_history (db : DB) (cs : List CardCand) :
    (Repository.updateCards db cs).history = db.history := by
  unfold Repository.updateCards
  split <;> rfl

theorem updateMintPasses_history (db : DB) (ps : List PassCand) :
    (Repository.updateMintPasses db ps).history = db.history := by
  unfold Repository.updateMintPasses
  split <;> rfl

theorem burnPasses_history (db : DB) (ids : List Int) :
    (Repository.burnPasses db ids).history = db.history := by
  unfold Repository.burnPasses
  split
  · split <;> rfl
  · rfl

theorem burnCards_history (db : DB) (ids : List Int) :
    (Repository.burnCards db ids).history = db.history := by
  unfold Repository.burnCards
  split
  · split <;> rfl
  · rfl

theorem repo_update_history (db : DB) (c : Classified) :
    (Repository.update db c).history = db.history := by
  simp only [Repository.update, Repository.updateElements, Repository.updateRarities,
    Repository.updateFamilies, Repository.updateUsers, updateMintPasses_history,
    updateCards_history, updateMetaCards_history]

theorem repo_burn_history (db : DB) (passIds cardIds : List Int) :
    (Repository.burn db passIds cardIds).history = db.history := by
  unfold Repository.burn
  rw [burnCards_history, burnPasses_history]

theorem processPage_history (db : DB) (updateTs : Nat) (a : Asset)
    (ps : List Asset) :
    (CTAManager.processPage db updateTs (a :: ps)).history
      = db.history ++ [⟨updateTs, a.updated_at, (a :: ps).length⟩] := by
  simp only [CTAManager.processPage, Repository.recordUpdate, repo_burn_history,
    repo_update_history]

/-! ## Claim C7 -/

/-- **C7 (amended).**  Every checkpoint row appended for a non-empty page
records the upstream `updated_at` timestamp of the **first** record of the
page (`assets[0].updated_at`, the earliest of the ascending page — not the
last processed record's), together with the iteration's wall-clock
timestamp and the page's record count. -/
theorem checkpoint_first_record_timestamp (db : DB) (updateTs : Nat) (a : Asset)
    (ps : List Asset) :
    (CTAManager.processPage db updateTs (a :: ps)).history
      = db.history ++ [⟨updateTs, a.updated_at, (a :: ps).length⟩] :=
  processPage_history db updateTs a ps

/-- A concrete card asset with the given token id, owner and upstream
timestamp. -/
def mkCardAsset (tid : Int) (owner : String) (ts : Nat) : Asset :=
  { user := owner, status := "imx", token_id := tid,
    metadata := {
      tokenType := "CARD", name := "Card", description := "d",
      numbering := 1, image := "https://c/M1-0001.png", rarity := "RARE",
      set := "FAM", element := "AIR", power := 10, foil := false, rank := 1,
      grade := "A", potential := 1, advancement := "STANDARD",
      cardType := "CREATURE", animationLevel := 0 },
    created_at := "t0", updated_at := ts }

/-- **C7, counterexample.**  A page of two records with upstream timestamps
10 and 20 (ascending): the appended checkpoint records timestamp 10 — the
first record's — while the last processed record's timestamp is 20. -/
theorem checkpoint_last_timestamp_counterexample :
    (CTAManager.processPage emptyDB 0
        [mkCardAsset 1 ("0xA") 10, mkCardAsset 2 ("0xA") 20]).history
      = [⟨0, 10, 2⟩]
    ∧ (mkCardAsset 2 ("0xA") 20).updated_at = 20
    ∧ ¬((10 : Nat) = 20) := by
  refine ⟨by decide, rfl, by decide⟩

/-! ## Claim C2 -/

/-- An upstream feed with three non-empty pages of one card asset each
(page size 1), then empty pages. -/
def u3pages : Upstream := fun c =>
  if c = none then Except.ok (1, [mkCardAsset 1 ("0xA") 10])
  else if c = some 1 then Except.ok (2, [mkCardAsset 2 ("0xA") 20])
  else if c = some 2 then Except.ok (3, [mkCardAsset 3 ("0xA") 30])
  else Except.ok (4, [])

/-- **C2 (code bug).**  The claim — with the spec and the documented intent
of `MAX_ASSETS_PER_UPDATE` ("maximum number of assets retrieved per
update") — requires the loop to stop once the cumulative record count
reaches the ceiling `N`, hence to write at most `⌈N/P⌉` pages of size `P`.
The code reassigns `assetsCount = assets.length` at every fetch instead of
accumulating, so the guard compares the *latest page's* length against the
ceiling: with ceiling `N = 2` and three upstream pages of size `P = 1`, the
cycle processes and checkpoints all three pages although
`⌈N/P⌉ = (2 + 1 - 1) / 1 = 2`. -/
theorem sync_budget_not_enforced :
    (CTAManager.update u3pages 2 10 st0).db.history.length = 3
    ∧ ((2 : Nat) + 1 - 1) / 1 = 2
    ∧ 3 > 2 := by
  refine ⟨by decide, by decide, by decide⟩

/-! ## Claim C3 -/

/-- **C3.**  If the upstream fetch of the next page throws after a
successful fetch of a processable page, the cycle ends without raising
(`CTAManager.update` and its loop are total — every fetch outcome is
matched, the error branches merely stop the cycle): the retained cursor is
exactly the cursor returned by the last successful fetch, untouched by the
failing call — so the next cycle re-requests the failing page — the store
reflects exactly the processed page's writes, and the history gained
exactly one checkpoint row for that page. -/
theorem fetch_failure_aborts_cycle (u : Upstream) (maxAssets fuel : Nat)
    (st : MState) (c1 : Nat) (a : Asset) (ps : List Asset)
    (h1 : u st.lastCursor = Except.ok (c1, a :: ps))
    (h2 : u (some c1) = Except.error ())
    (hlen : (a :: ps).length < maxAssets) :
    CTAManager.update u maxAssets (fuel + 1) st
      = { lastCursor := some c1,
          db := CTAManager.processPage st.db st.clock (a :: ps),
          clock := st.clock + 1 }
    ∧ (CTAManager.processPage st.db st.clock (a :: ps)).history
        = st.db.history ++ [⟨st.clock, a.updated_at, (a :: ps).length⟩] := by
  constructor
  · unfold CTAManager.update CTAManager.getNewAssetsPage
    rw [h1]
    unfold CTAManager.updateLoop
    rw [if_pos ⟨by simp, hlen⟩]
    simp only
    unfold CTAManager.getNewAssetsPage
    simp only
    rw [h2]
  · exact processPage_history st.db st.clock a ps

/-- An upstream feed whose first fetch returns one card asset with
continuation cursor 7 and whose every later fetch throws. -/
def uFailSecond : Upstream := fun c =>
  if c = none then Except.ok (7, [mkCardAsset 1 ("0xA") 10])
  else Except.error ()

/-- **C3, witness.**  One page is fetched and processed, the second fetch
throws: the final cursor is the first fetch's cursor 7, the store is
exactly the first page's writes, and exactly one checkpoint row was
appended. -/
theorem fetch_failure_aborts_cycle_witness :
    CTAManager.update uFailSecond 5 1 st0
      = { lastCursor := some 7,
          db := CTAManager.processPage st0.db st0.clock [mkCardAsset 1 ("0xA") 10],
          clock := st0.clock + 1 }
    ∧ (CTAManager.processPage st0.db st0.clock [mkCardAsset 1 ("0xA") 10]).history
        = st0.db.history
          ++ [⟨st0.clock, (mkCardAsset 1 ("0xA") 10).updated_at,
              ([mkCardAsset 1 ("0xA") 10] : List Asset).length⟩] :=
  fetch_failure_aborts_cycle uFailSecond 5 0 st0 7 (mkCardAsset 1 ("0xA") 10) []
    rfl rfl (by decide)

/-! ## Claim C8 -/

/-- Checkpoint ordering: upstream timestamps non-decreasing. -/
def histLe (r s : HistRow) : Prop :=
  r.last_asset_timestamp ≤ s.last_asset_timestamp

theorem updateLoop_history_sorted (u : Upstream) (maxAssets : Nat)
    (hasc : ∀ c c1 p c2 p2, u c = Except.ok (c1, p) →
      u (some c1) = Except.ok (c2, p2) →
      ∀ a ∈ p, ∀ b ∈ p2, a.updated_at ≤ b.updated_at)
    (fuel : Nat) :
    ∀ (st : MState) (assets : List Asset) (count : Nat) (c0 : Option Nat)
      (c1 : Nat), u c0 = Except.ok (c1, assets) → st.lastCursor = some c1 →
      List.Pairwise histLe st.db.history →
      (∀ r ∈ st.db.history, ∀ a ∈ assets,
        r.last_asset_timestamp ≤ a.updated_at) →
      List.Pairwise histLe
        ((CTAManager.updateLoop u maxAssets fuel st assets count).db.history) := by
  induction fuel with
  | zero =>
    intro st assets count c0 c1 h1 h2 hsort hinv
    simpa [CTAManager.updateLoop] using hsort
  | succ fuel ih =>
    intro st assets count c0 c1 h1 h2 hsort hinv
    rcases assets with _ | ⟨a, ps⟩
    · unfold CTAManager.updateLoop
      rw [if_neg (by simp)]
      exact hsort
    · unfold CTAManager.updateLoop
      by_cases hcond : 0 < (a :: ps).length ∧ count < maxAssets
      · rw [if_pos hcond]
        have hsort1 : List.Pairwise histLe
            (CTAManager.processPage st.db st.clock (a :: ps)).history := by
          rw [processPage_history]
          rw [List.pairwise_append]
          refine ⟨hsort, by simp, ?_⟩
          intro r hr s hs
          rw [List.mem_singleton] at hs
          rw [hs]
          exact hinv r hr a (List.mem_cons_self a ps)
        cases hnext : u (some c1) with
        | error e =>
          have hfetch : CTAManager.getNewAssetsPage u
              (MState.mk st.lastCursor
                (CTAManager.processPage st.db st.clock (a :: ps)) (st.clock + 1))
              = Except.error e := by
            unfold CTAManager.getNewAssetsPage
            simp only
            rw [h2, hnext]
          simp only [hfetch]
          exact hsort1
        | ok pr =>
          rcases pr with ⟨c2, p2⟩
          have hfetch : CTAManager.getNewAssetsPage u
              (MState.mk st.lastCursor
                (CTAManager.processPage st.db st.clock (a :: ps)) (st.clock + 1))
              = Except.ok
                  (MState.mk (some c2)
                    (CTAManager.processPage st.db st.clock (a :: ps))
                    (st.clock + 1), p2) := by
            unfold CTAManager.getNewAssetsPage
            simp only
            rw [h2, hnext]
          simp only [hfetch]
          apply ih _ p2 p2.length (some c1) c2 hnext rfl hsort1
          intro r hr b hb
          rw [processPage_history] at hr
          rcases List.mem_append.mp hr with hold | hnew
          · calc r.last_asset_timestamp
                ≤ a.updated_at := hinv r hold a (List.mem_cons_self a ps)
              _ ≤ b.updated_at :=
                hasc c0 c1 (a :: ps) c2 p2 h1 hnext a (List.mem_cons_self a ps) b hb
          · rw [List.mem_singleton] at hnew
            rw [hnew]
            exact hasc c0 c1 (a :: ps) c2 p2 h1 hnext a (List.mem_cons_self a ps) b hb
      · rw [if_neg hcond]
        exact hsort

/-- **C8.**  Assuming the upstream feed hands out pages in globally
ascending `updated_at` order — every record of a page fetched with the
cursor returned alongside a previous page is at least as new as every
record of that previous page — the upstream timestamps recorded in the
checkpoint rows appended within a single run (a run starting from an empty
history) are monotonically non-decreasing. -/
theorem checkpoint_timestamps_monotone (u : Upstream) (maxAssets fuel : Nat)
    (st : MState)
    (hasc : ∀ c c1 p c2 p2, u c = Except.ok (c1, p) →
      u (some c1) = Except.ok (c2, p2) →
      ∀ a ∈ p, ∀ b ∈ p2, a.updated_at ≤ b.updated_at)
    (h0 : st.db.history = []) :
    List.Pairwise histLe ((CTAManager.update u maxAssets fuel st).db.history) := by
  unfold CTAManager.update CTAManager.getNewAssetsPage
  cases hfetch : u st.lastCursor with
  | error e =>
    simp only
    rw [h0]
    exact List.Pairwise.nil
  | ok pr =>
    rcases pr with ⟨c1, p⟩
    simp only
    apply updateLoop_history_sorted u maxAssets hasc fuel _ p p.length
      st.lastCursor c1 hfetch rfl
    · show List.Pairwise histLe st.db.history
      rw [h0]
      exact List.Pairwise.nil
    · intro r hr
      rw [h0] at hr
      exact absurd hr (List.not_mem_nil r)

/-- An upstream feed yielding one single-record page and then empty
pages. -/
def uMono : Upstream := fun c =>
  if c = none then Except.ok (1, [mkCardAsset 1 ("0xA") 10])
  else Except.ok (2, [])

/-- **C8, witness.**  Running a cycle against `uMono` from the initial
state: the checkpoint history is sorted by upstream timestamp. -/
theorem checkpoint_timestamps_monotone_witness :
    List.Pairwise histLe ((CTAManager.update uMono 5 4 st0).db.history) := by
  apply checkpoint_timestamps_monotone uMono 5 4 st0
  · intro c c1 p c2 p2 h1 h2 a ha b hb
    by_cases hc : c = none
    · rw [hc] at h1
      have hp2 : p2 = [] := by
        have h1e : uMono none = Except.ok (1, [mkCardAsset 1 ("0xA") 10]) := rfl
        rw [h1e] at h1
        injection h1 with h1p
        have hc1 : c1 = 1 := (congrArg Prod.fst h1p).symm
        rw [hc1] at h2
        have h2e : uMono (some 1) = Except.ok (2, []) := rfl
        rw [h2e] at h2
        injection h2 with h2p
        exact (congrArg Prod.snd h2p).symm
      rw [hp2] at hb
      exact absurd hb (List.not_mem_nil b)
    · have hp : p = [] := by
        have h1e : uMono c = Except.ok (2, []) := by
          unfold uMono
          rw [if_neg hc]
        rw [h1e] at h1
        injection h1 with h1p
        exact (congrArg Prod.snd h1p).symm
      rw [hp] at ha
      exact absurd ha (List.not_mem_nil a)
  · rfl

/-! ## Claim C10 -/

theorem classifyStep_users (acc : Classified) (a : Asset) :
    (classifyStep acc a).users
      = if a.metadata.tokenType = "CARD" then addString acc.users a.user
        else acc.users := by
  unfold classifyStep
  by_cases hmp : a.metadata.tokenType = "MINT_PASS" <;>
    by_cases hcard : a.metadata.tokenType = "CARD" <;>
      simp [hmp, hcard]

theorem classifyStep_mintPasses (acc : Classified) (a : Asset) :
    (classifyStep acc a).mintPasses
      = if a.metadata.tokenType = "MINT_PASS" then
          addPassCand acc.mintPasses
            ⟨a.token_id, getMintPassType a, a.user, a.metadata.numbering,
              a.created_at, a.updated_at⟩
        else acc.mintPasses := by
  unfold classifyStep
  by_cases hmp : a.metadata.tokenType = "MINT_PASS" <;>
    by_cases hcard : a.metadata.tokenType = "CARD" <;>
      simp [hmp, hcard]

theorem classify_fold_users (l : List Asset) :
    ∀ acc : Classified,
      (l.foldl classifyStep acc).users
        = ((l.filter (fun a => decide (a.metadata.tokenType = "CARD"))).map
            Asset.user).foldl addString acc.users := by
  induction l with
  | nil => intro acc; rfl
  | cons a l ih =>
    intro acc
    rw [List.foldl_cons, ih, classifyStep_users]
    by_cases hcard : a.metadata.tokenType = "CARD"
    · simp [List.filter_cons, hcard]
    · simp [List.filter_cons, hcard]

theorem classify_users_from_cards (assets : List Asset) :
    (classifyAssets assets).users
      = (((assets.filter (fun a => decide (a.status ≠ "burned"))).filter
          (fun a => decide (a.metadata.tokenType = "CARD"))).map Asset.user).foldl
          addString [] := by
  unfold classifyAssets
  rw [classify_fold_users]
  rfl

theorem mem_foldl_addString (l : List String) :
    ∀ (acc : List String) (x : String),
      x ∈ l.foldl addString acc ↔ x ∈ acc ∨ x ∈ l := by
  induction l with
  | nil => intro acc x; simp
  | cons a l ih =>
    intro acc x
    rw [List.foldl_cons, ih]
    unfold addString
    by_cases hmem : a ∈ acc
    · rw [if_pos hmem]
      constructor
      · rintro (h | h)
        · exact Or.inl h
        · exact Or.inr (List.mem_cons_of_mem a h)
      · rintro (h | h)
        · exact Or.inl h
        · rcases List.mem_cons.mp h with he | hl
          · exact Or.inl (he ▸ hmem)
          · exact Or.inr hl
    · rw [if_neg hmem]
      simp only [List.mem_append, List.mem_singleton, List.mem_cons]
      tauto

theorem addPassCand_ids_nodup (l : List PassCand) (x : PassCand)
    (h : (l.map PassCand.id).Nodup) :
    ((addPassCand l x).map PassCand.id).Nodup := by
  unfold addPassCand
  cases hc : l.any (fun p => decide (p.id = x.id)) with
  | true => simpa [hc] using h
  | false =>
    simp only [hc, Bool.false_eq_true, if_false]
    rw [List.map_append, List.nodup_append]
    refine ⟨h, by simp, ?_⟩
    intro k hk hk2
    simp only [List.map_cons, List.map_nil, List.mem_singleton] at hk2
    rcases List.mem_map.mp hk with ⟨p, hp, hpe⟩
    have hall := List.any_eq_false.mp hc p hp
    rw [decide_eq_true_eq] at hall
    exact hall (by rw [hpe, hk2])

theorem classify_mintPasses_ids_nodup (assets : List Asset) :
    ((classifyAssets assets).mintPasses.map PassCand.id).Nodup := by
  unfold classifyAssets
  have h : ∀ (l : List Asset) (acc : Classified),
      (acc.mintPasses.map PassCand.id).Nodup →
      ((l.foldl classifyStep acc).mintPasses.map PassCand.id).Nodup := by
    intro l
    induction l with
    | nil => intro acc h; exact h
    | cons a l ih =>
      intro acc h
      rw [List.foldl_cons]
      apply ih
      rw [classifyStep_mintPasses]
      split
      · exact addPassCand_ids_nodup _ _ h
      · exact h
  exact h _ emptyClassified (by simp [emptyClassified])

theorem insertNewValues_not_mem (t : EnumTable) (items : List String) (x : String)
    (hx1 : x ∉ t.rows.map Prod.snd) (hx2 : x ∉ items) :
    x ∉ (Repository.insertNewValuesInEnumTable t items).rows.map Prod.snd := by
  unfold Repository.insertNewValuesInEnumTable
  cases hc : (items.filter
      (fun v => !(decide (v ∈ t.rows.map Prod.snd)))).length with
  | zero =>
    simp only [hc, gt_iff_lt, Nat.lt_irrefl, if_false]
    exact hx1
  | succ m =>
    simp only [hc, gt_iff_lt, Nat.succ_pos, if_pos]
    rcases enumInsert_rows t
        (items.filter (fun v => !(decide (v ∈ t.rows.map Prod.snd)))) with
      ⟨added, ha, hmem⟩
    rw [ha, List.map_append, List.mem_append]
    rintro (h | h)
    · exact hx1 h
    · rcases List.mem_map.mp h with ⟨p, hp, hpe⟩
      rcases List.mem_filter.mp (hmem p hp) with ⟨hit, _⟩
      exact hx2 (hpe ▸ hit)

theorem lookupName_eq_none (rows : List (Nat × String)) (n : String)
    (h : n ∉ rows.map Prod.snd) : lookupName rows n = none := by
  induction rows with
  | nil => rfl
  | cons r rows ih =>
    simp only [List.map_cons, List.mem_cons, not_or] at h
    unfold lookupName
    rw [if_neg (fun e => h.1 e.symm)]
    exact ih h.2

theorem updateMetaCards_users (db : DB) (mc : List MetaCand) :
    (Repository.updateMetaCards db mc).users = db.users := by
  unfold Repository.updateMetaCards
  split <;> rfl

theorem updateCards_users (db : DB) (cs : List CardCand) :
    (Repository.updateCards db cs).users = db.users := by
  unfold Repository.updateCards
  split <;> rfl

theorem updateMetaCards_mintPasses (db : DB) (mc : List MetaCand) :
    (Repository.updateMetaCards db mc).mintPasses = db.mintPasses := by
  unfold Repository.updateMetaCards
  split <;> rfl

theorem updateCards_mintPasses (db : DB) (cs : List CardCand) :
    (Repository.updateCards db cs).mintPasses = db.mintPasses := by
  unfold Repository.updateCards
  split <;> rfl

theorem updateMetaCards_mintPassTypes (db : DB) (mc : List MetaCand) :
    (Repository.updateMetaCards db mc).mintPassTypes = db.mintPassTypes := by
  unfold Repository.updateMetaCards
  split <;> rfl

theorem updateCards_mintPassTypes (db : DB) (cs : List CardCand) :
    (Repository.updateCards db cs).mintPassTypes = db.mintPassTypes := by
  unfold Repository.updateCards
  split <;> rfl

theorem repo_update_mintPasses (db : DB) (c : Classified)
    (hc : c.mintPasses ≠ []) :
    (Repository.update db c).mintPasses
      = DatabaseService.upsert db.mintPasses
          (c.mintPasses.map (passRowOf
            (Repository.insertNewValuesInEnumTable db.users c.users).rows
            (Repository.updateMintPassTypes db.mintPassTypes
              c.mintPassTypes).rows)) := by
  have hlen : ¬(c.mintPasses.length ≤ 0) := by
    intro hle
    exact hc (List.length_eq_zero.mp (Nat.le_zero.mp hle))
  simp only [Repository.update, Repository.updateMintPasses,
    Repository.updateElements, Repository.updateRarities,
    Repository.updateFamilies, Repository.updateUsers,
    updateMetaCards_users, updateCards_users, updateMetaCards_mintPasses,
    updateCards_mintPasses, updateMetaCards_mintPassTypes,
    updateCards_mintPassTypes, hlen, if_false]

/-- **C10.**  During page classification, owner addresses enter the
user-dimension candidate set only from active card records — the candidate
set is exactly the fold of the active `CARD` records' owners, with
`MINT_PASS` records contributing nothing.  Consequently, for a classified
mint-pass candidate whose owner is neither already in the user dimension
nor the owner of any active card record of the page, the page's
reconciliation writes the mint-pass row with an unresolved (`none`/SQL
NULL) user foreign key. -/
theorem mint_pass_owner_not_user_candidate (db : DB) (assets : List Asset)
    (m : PassCand)
    (hm : m ∈ (classifyAssets assets).mintPasses)
    (hdb : m.user ∉ db.users.rows.map Prod.snd)
    (hnocard : ∀ a ∈ assets, a.status ≠ "burned" →
      a.metadata.tokenType = "CARD" → a.user ≠ m.user) :
    (classifyAssets assets).users
      = (((assets.filter (fun a => decide (a.status ≠ "burned"))).filter
          (fun a => decide (a.metadata.tokenType = "CARD"))).map Asset.user).foldl
          addString []
    ∧ ∃ content : PassContent,
        lookupPk ((Repository.update db (classifyAssets assets)).mintPasses) m.id
          = some ⟨m.id, content⟩
        ∧ content.user_id = none := by
  refine ⟨classify_users_from_cards assets, ?_⟩
  have husers_pv : m.user ∉ (classifyAssets assets).users := by
    rw [classify_users_from_cards]
    intro hmem
    rw [mem_foldl_addString] at hmem
    rcases hmem with h | h
    · exact absurd h (List.not_mem_nil _)
    · rcases List.mem_map.mp h with ⟨a, ha, hae⟩
      rcases List.mem_filter.mp ha with ⟨ha2, hcardb⟩
      rcases List.mem_filter.mp ha2 with ⟨hain, hstat⟩
      exact hnocard a hain (by simpa using hstat) (by simpa using hcardb) hae
  have husers_tab : m.user ∉
      (Repository.insertNewValuesInEnumTable db.users
        (classifyAssets assets).users).rows.map Prod.snd :=
    insertNewValues_not_mem db.users (classifyAssets assets).users m.user hdb
      husers_pv
  have hlook : lookupName
      (Repository.insertNewValuesInEnumTable db.users
        (classifyAssets assets).users).rows m.user = none :=
    lookupName_eq_none _ _ husers_tab
  rw [repo_update_mintPasses db (classifyAssets assets)
    (List.ne_nil_of_mem hm)]
  have hnodup : (((classifyAssets assets).mintPasses.map (passRowOf
      (Repository.insertNewValuesInEnumTable db.users
        (classifyAssets assets).users).rows
      (Repository.updateMintPassTypes db.mintPassTypes
        (classifyAssets assets).mintPassTypes).rows)).map RowC.pk).Nodup := by
    rw [List.map_map]
    exact classify_mintPasses_ids_nodup assets
  have hlat := upsert_lookup_latest db.mintPasses _ hnodup
    (passRowOf
      (Repository.insertNewValuesInEnumTable db.users
        (classifyAssets assets).users).rows
      (Repository.updateMintPassTypes db.mintPassTypes
        (classifyAssets assets).mintPassTypes).rows m)
    (List.mem_map_of_mem _ hm)
  refine ⟨⟨m.numbering, m.created_at, m.updated_at,
    lookupPassType (Repository.updateMintPassTypes db.mintPassTypes
      (classifyAssets assets).mintPassTypes).rows m.passType, none⟩, ?_, rfl⟩
  rw [show passRowOf
      (Repository.insertNewValuesInEnumTable db.users
        (classifyAssets assets).users).rows
      (Repository.updateMintPassTypes db.mintPassTypes
        (classifyAssets assets).mintPassTypes).rows m
      = ⟨m.id, ⟨m.numbering, m.created_at, m.updated_at,
          lookupPassType (Repository.updateMintPassTypes db.mintPassTypes
            (classifyAssets assets).mintPassTypes).rows m.passType, none⟩⟩ by
    unfold passRowOf
    rw [hlook]] at hlat
  exact hlat

/-- A concrete mint-pass asset with the given token id, owner and upstream
timestamp. -/
def mkPassAsset (tid : Int) (owner : String) (ts : Nat) : Asset :=
  { user := owner, status := "imx", token_id := tid,
    metadata := {
      tokenType := "MINT_PASS", name := "Pass", description := "d",
      numbering := 3, image := "https://c/GOLD.png", rarity := "", set := "",
      element := "", power := 0, foil := false, rank := 0, grade := "",
      potential := 0, advancement := "", cardType := "", animationLevel := 0 },
    created_at := "t0", updated_at := ts }

/-- The mint-pass candidate the classification builds from
`mkPassAsset 5 "0xB" 11` (pass type `GOLD` from the image filename). -/
def passM0 : PassCand := ⟨5, "GOLD", "0xB", 3, "t0", 11⟩

/-- **C10, witness.**  A page holding one mint pass owned by `0xB`, who
owns no cards, against the empty store: the user candidate set is exactly
the (empty) card-owner fold, and the written `MINT_PASS` row 5 has
`user_id = none`. -/
theorem mint_pass_owner_not_user_candidate_witness :
    (classifyAssets [mkPassAsset 5 ("0xB") 11]).users
      = (((([mkPassAsset 5 ("0xB") 11]).filter
          (fun a => decide (a.status ≠ "burned"))).filter
          (fun a => decide (a.metadata.tokenType = "CARD"))).map Asset.user).foldl
          addString []
    ∧ ∃ content : PassContent,
        lookupPk ((Repository.update emptyDB
            (classifyAssets [mkPassAsset 5 ("0xB") 11])).mintPasses) passM0.id
          = some ⟨passM0.id, content⟩
        ∧ content.user_id = none :=
  mint_pass_owner_not_user_candidate emptyDB [mkPassAsset 5 ("0xB") 11] passM0
    (by decide) (by decide) (by decide)

end CtaServer
